import Mathlib

/-!
# A shallow embedding of `lazy-sorted-array`

This file embeds the TypeScript class `SortedArray<T>` (file
`src/sorted-array.ts` of the `lazy-sorted-array` repository) into Lean and
proves properties of the embedding.

Modelling conventions:
* JavaScript numbers that the library only ever uses at integer values
  (insertion counters, indices, comparator results) are modelled as `Int`.
  The user comparator is a parameter `cmp : T → T → Int` standing for the
  stored `originalCompareFn` field; an `Int`-valued comparator can never
  return `NaN`, so the source's `NaN` guard is unreachable except where an
  out-of-range array access yields `undefined` (see `searchGo`).
* `this.array` is a `List (SANode T)`; in-place mutation becomes explicit
  state passing, each method returning its result together with the new
  `SortedArray` state.
* Thrown exceptions become `Except.error` with the thrown message;
  the source interpolates offending values into some messages, which is
  dropped here.
* `-0`, which `findNth` treats specially, is modelled by the `NArg` type.
-/

/-- `Number.MAX_SAFE_INTEGER`. -/
def MAX_SAFE_INTEGER : Int := 2 ^ 53 - 1

/-- `Number.MIN_SAFE_INTEGER`. -/
def MIN_SAFE_INTEGER : Int := -(2 ^ 53 - 1)

/-- JavaScript array indexing `a[i]` with a possibly negative or out-of-range
index: it yields `undefined` (here `none`) outside `[0, length)`. -/
def jsGet (l : List α) (i : Int) : Option α :=
  if i < 0 then none else l[i.toNat]?

/-- `SANode<T>`: one entry of a `SortedArray`, pairing the user payload `obj`
with the insertion-order key `index` (NOT the node's position in the array). -/
structure SANode (T : Type) where
  obj : T
  index : Int
deriving DecidableEq

/-- The mutable fields of a `SortedArray<T>` instance.  The stored
`originalCompareFn` is passed explicitly as the `cmp` argument of each
operation. `sorting` is the reentrancy guard of `_sort`; the source never
initializes it, and JavaScript treats the resulting `undefined` as false. -/
structure SortedArray (T : Type) where
  array : List (SANode T)
  sorted : Bool
  sorting : Bool
  insertionCounter : Int
deriving DecidableEq

/-- The augmented comparator `this.compareFn` built in the constructor:
the user comparator on payloads, falling back to `a.index - b.index`
(insertion order) on ties. -/
def SortedArray.compareFn (cmp : T → T → Int) (a b : SANode T) : Int :=
  let compare := cmp a.obj b.obj
  if compare = 0 then a.index - b.index else compare

/-- `SortedArray._sort`: sorts `this.array` by `this.compareFn` unless it is
already sorted or a sort is already in progress, then records the array as
sorted.  `Array.prototype.sort` with a consistent comparator is a stable sort
(ES2019), modelled by `List.mergeSort`. With a pure comparator the transient
`sorting = true` window is unobservable, so the field comes back unchanged. -/
def SortedArray._sort (cmp : T → T → Int) (s : SortedArray T) : SortedArray T :=
  if s.sorted = false ∧ s.sorting = false then
    { s with
      array := s.array.mergeSort (fun a b => decide (SortedArray.compareFn cmp a b ≤ 0)),
      sorted := true }
  else
    { s with sorted := true }

/-- `SortedArray.unwrap`: project the `obj` field of each node of the given
array, or of `this.array` when no argument is given. -/
def SortedArray.unwrap (s : SortedArray T) (items : Option (List (SANode T)) := none) : List T :=
  match items with
  | some l => l.map (fun v => v.obj)
  | none => s.array.map (fun v => v.obj)

/-- The position that the node at position `p` of `arr` ends up occupying in
`copy.sort((a, b) => a.index - b.index)` (a stable sort of a copy of the
array by ascending `index`): the number of nodes with a strictly smaller
`index`, plus the earlier nodes with an equal `index`. -/
def SortedArray.rankByIndex (arr : List (SANode T)) (p : Nat) (n : SANode T) : Nat :=
  arr.enum.countP (fun q => decide (q.2.index < n.index ∨ (q.2.index = n.index ∧ q.1 < p)))

/-- `SortedArray.reduceInsertionOrders`: stable-sorts a copy of `this.array` by
ascending node `index`, resets the counter to `Number.MIN_SAFE_INTEGER`, and
reassigns each node (in sorted-copy order) the next counter value.  The nodes
are mutated in place through the copy, so `this.array` keeps its element order
while each node's `index` becomes `MIN_SAFE_INTEGER +` its sorted-copy
position, and the counter ends at `MIN_SAFE_INTEGER + length`. -/
def SortedArray.reduceInsertionOrders (s : SortedArray T) : SortedArray T :=
  { s with
    array := s.array.enum.map (fun pn =>
      { pn.2 with index := MIN_SAFE_INTEGER + SortedArray.rankByIndex s.array pn.1 pn.2 }),
    insertionCounter := MIN_SAFE_INTEGER + s.array.length }

/-- `SortedArray.wrapOne`: wrap a payload into an `SANode`.  A real insertion
takes the current counter as `index` and increments the counter, renumbering
first via `reduceInsertionOrders` when the incremented counter reaches
`Number.MAX_SAFE_INTEGER`.  An emulated wrap (`emulateEndInsertion`) reads the
counter (plus the optional increment, `?? 0`) without advancing it. -/
def SortedArray.wrapOne (s : SortedArray T) (obj : T)
    (emulateEndInsertion : Bool := false) (emulateEndInsertionIncrement : Int := 0) :
    SANode T × SortedArray T :=
  let index := s.insertionCounter + emulateEndInsertionIncrement
  if emulateEndInsertion = false then
    let s1 := { s with insertionCounter := s.insertionCounter + 1 }
    if MAX_SAFE_INTEGER ≤ s1.insertionCounter then
      let s2 := SortedArray.reduceInsertionOrders s1
      (⟨obj, s2.insertionCounter⟩, { s2 with insertionCounter := s2.insertionCounter + 1 })
    else
      (⟨obj, index⟩, s1)
  else
    (⟨obj, index⟩, s)

/-- `SortedArray.wrap`: wrap each payload in order (`objs.map(this.wrapOne)`),
threading the counter state. -/
def SortedArray.wrap (s : SortedArray T) (objs : List T) : List (SANode T) × SortedArray T :=
  match objs with
  | [] => ([], s)
  | o :: rest =>
    let (n, s1) := SortedArray.wrapOne s o
    let (ns, s2) := SortedArray.wrap s1 rest
    (n :: ns, s2)

/-- `new SortedArray(compareFn, elements)`: counter at `MIN_SAFE_INTEGER`,
backing array from wrapping `elements` (empty when absent), not sorted. -/
def SortedArray.construct (elements : Option (List T)) : SortedArray T :=
  let s0 : SortedArray T :=
    { array := [], sorted := false, sorting := false, insertionCounter := MIN_SAFE_INTEGER }
  match elements with
  | some els =>
    let (ns, s1) := SortedArray.wrap s0 els
    { s1 with array := ns, sorted := false }
  | none => s0

/-- The loop body of `addAll`: `this.array.push(this.wrapOne(item))` for each
item in order. -/
def SortedArray.addLoop (s : SortedArray T) : List T → SortedArray T
  | [] => s
  | item :: rest =>
    let (n, s1) := SortedArray.wrapOne s item
    SortedArray.addLoop { s1 with array := s1.array ++ [n] } rest

/-- `SortedArray.addAll`: mark dirty, append each wrapped item, return the new
length. -/
def SortedArray.addAll (s : SortedArray T) (items : List T) : Int × SortedArray T :=
  let s1 := SortedArray.addLoop { s with sorted := false } items
  ((s1.array.length : Int), s1)

/-- `SortedArray.add(...items)` delegates to `addAll`. -/
def SortedArray.add (s : SortedArray T) (items : List T) : Int × SortedArray T :=
  SortedArray.addAll s items

/-- `SortedArray.toArray`: sort, then snapshot the payloads in array order. -/
def SortedArray.toArray (cmp : T → T → Int) (s : SortedArray T) : List T × SortedArray T :=
  let s1 := SortedArray._sort cmp s
  (s1.unwrap, s1)

/-- `SortedArray.get`: bounds-check against the current length (throwing a
RangeError outside `[0, length)`), sort, and return the payload at `index`. -/
def SortedArray.get (cmp : T → T → Int) (s : SortedArray T) (index : Int) :
    Except String T × SortedArray T :=
  if index < 0 ∨ (s.array.length : Int) ≤ index then
    (.error "RangeError: index is outside the bounds of this array", s)
  else
    let s1 := SortedArray._sort cmp s
    match jsGet s1.array index with
    | some node => (.ok node.obj, s1)
    | none => (.error "RangeError: index is outside the bounds of this array", s1)

/-- The loop of `removeAll` over the ascending-sorted index list: the `i`-th
processed index is corrected by `- i` for the elements already removed, a
RangeError is recorded if the corrected index is out of range, and otherwise
the node there is spliced out and its payload accumulated.  The state of the
backing array at the point of an error is also returned (a thrown exception
leaves the removals already performed in place). -/
def SortedArray.removeLoop (arr : List (SANode T)) :
    List Int → Int → List T × List (SANode T) × Option String
  | [], _ => ([], arr, none)
  | j :: rest, i =>
    let index := j - i
    if h : 0 ≤ index ∧ index.toNat < arr.length then
      let node := arr.get ⟨index.toNat, h.2⟩
      let res := SortedArray.removeLoop (arr.eraseIdx index.toNat) rest (i + 1)
      (node.obj :: res.1, res.2)
    else
      ([], arr, some "RangeError: index is outside the bounds of this array")

/-- `SortedArray.removeAll`: sort the collection, sort the requested indices
ascending (`indices.sort((a, b) => a - b)`), then remove them via
`removeLoop`, returning the removed payloads. -/
def SortedArray.removeAll (cmp : T → T → Int) (s : SortedArray T) (indices : List Int) :
    Except String (List T) × SortedArray T :=
  let s1 := SortedArray._sort cmp s
  let sortedIdx := indices.mergeSort (fun a b => decide (a ≤ b))
  match SortedArray.removeLoop s1.array sortedIdx 0 with
  | (acc, arr, none) => (.ok acc, { s1 with array := arr })
  | (_, arr, some e) => (.error e, { s1 with array := arr })

/-- `SortedArray.remove(...indices)` delegates to `removeAll`. -/
def SortedArray.remove (cmp : T → T → Int) (s : SortedArray T) (indices : List Int) :
    Except String (List T) × SortedArray T :=
  SortedArray.removeAll cmp s indices

/-- `SortedArray.pop`: sort, then `this.array.pop().obj`.  On an empty array,
`pop()` is `undefined` and reading `.obj` throws a TypeError. -/
def SortedArray.pop (cmp : T → T → Int) (s : SortedArray T) :
    Except String T × SortedArray T :=
  let s1 := SortedArray._sort cmp s
  match s1.array.getLast? with
  | some node => (.ok node.obj, { s1 with array := s1.array.dropLast })
  | none => (.error "TypeError: Cannot read property obj of undefined", s1)

/-- `SortedArray.shift`: sort, then `this.array.shift().obj`.  On an empty
array, `shift()` is `undefined` and reading `.obj` throws a TypeError. -/
def SortedArray.shift (cmp : T → T → Int) (s : SortedArray T) :
    Except String T × SortedArray T :=
  let s1 := SortedArray._sort cmp s
  match s1.array.head? with
  | some node => (.ok node.obj, { s1 with array := s1.array.tail })
  | none => (.error "TypeError: Cannot read property obj of undefined", s1)

/-- The index normalization of `Array.prototype.slice`: negative indices are
relative to the end, and everything is clamped to `[0, length]`. -/
def jsSliceIdx (len : Nat) (i : Int) : Nat :=
  if i < 0 then ((len : Int) + i).toNat else min i.toNat len

/-- `Array.prototype.slice(start, end)` on a list, with JavaScript's optional
arguments, negative indexing and clamping. -/
def jsSlice (l : List α) (start stop : Option Int) : List α :=
  let a := jsSliceIdx l.length (start.getD 0)
  let b := match stop with
    | none => l.length
    | some e => jsSliceIdx l.length e
  (l.take b).drop a

/-- `SortedArray.slice`: sort, then `this.unwrap(this.array.slice(start, end))`. -/
def SortedArray.slice (cmp : T → T → Int) (s : SortedArray T) (start stop : Option Int) :
    List T × SortedArray T :=
  let s1 := SortedArray._sort cmp s
  (s1.unwrap (some (jsSlice s1.array start stop)), s1)

/-- `SortedArray.splice`: an error when replacement `items` are provided
(before any state change); otherwise sort and delegate to
`Array.prototype.splice(start, deleteCount)` semantics (negative `start`
relative to the end, `deleteCount` clamped to `[0, length - start]`,
`undefined` deleteCount converted to `0`). -/
def SortedArray.splice (cmp : T → T → Int) (s : SortedArray T)
    (start : Int) (deleteCount : Option Int) (items : List T) :
    Except String (List T) × SortedArray T :=
  if 0 < items.length then
    (.error "splice is an invalid operation on a sorted array when providing replacement items", s)
  else
    let s1 := SortedArray._sort cmp s
    let len := s1.array.length
    let aStart := if start < 0 then ((len : Int) + start).toNat else min start.toNat len
    let d := deleteCount.getD 0
    let dc := if d < 0 then 0 else min d.toNat (len - aStart)
    let removed := (s1.array.drop aStart).take dc
    (.ok (s1.unwrap (some removed)),
     { s1 with array := s1.array.take aStart ++ s1.array.drop (aStart + dc) })

/-- `SortedArray.sort`: an error when a replacement comparator is provided;
otherwise clear the sorted flag and re-sort unconditionally (used to
resynchronize after external mutation of payload contents). -/
def SortedArray.sort (cmp : T → T → Int) (s : SortedArray T)
    (compareFnArg : Option (T → T → Int)) : Except String Unit × SortedArray T :=
  match compareFnArg with
  | some _ =>
    (.error "sort is an invalid operation on a sorted array when providing a new compare function", s)
  | none => (.ok (), SortedArray._sort cmp { s with sorted := false })

/-- `SortedArray.push`: always an error. -/
def SortedArray.push (s : SortedArray T) (items : T) : Except String Int × SortedArray T :=
  (.error "push is an invalid operation on a sorted array", s)

/-- `SortedArray.concat`: always an error. -/
def SortedArray.concat (s : SortedArray T) (items : List (List T)) :
    Except String (List T) × SortedArray T :=
  (.error "concat is an invalid operation on a sorted array", s)

/-- `SortedArray.reverse`: always an error. -/
def SortedArray.reverse (s : SortedArray T) : Except String (List T) × SortedArray T :=
  (.error "reverse is an invalid operation on a sorted array", s)

/-- `SortedArray.unshift`: always an error. -/
def SortedArray.unshift (s : SortedArray T) (items : List T) :
    Except String Int × SortedArray T :=
  (.error "unshift is an invalid operation on a sorted array", s)

/-- `SortedArray.fill`: always an error. -/
def SortedArray.fill (s : SortedArray T) (value : T) (start stop : Option Int) :
    Except String Unit × SortedArray T :=
  (.error "fill is an invalid operation on a sorted array", s)

/-- `SortedArray.copyWithin`: always an error. -/
def SortedArray.copyWithin (s : SortedArray T) (target start : Int) (stop : Option Int) :
    Except String Unit × SortedArray T :=
  (.error "copyWithin is an invalid operation on a sorted array", s)

/-- The property keys the proxy `Handler` distinguishes, after
`Handler.checkInteger`: an integer-valued key (an array index), the string
`"length"`, or any other key (passed through via `Reflect`). -/
inductive PropKey where
  | intKey (i : Int)
  | lengthKey
  | other
deriving DecidableEq

/-- `Handler.set`, the proxy trap for assignments `sa[i] = v` and
`sa.length = v`.  `value` is the result of `Handler.checkInteger(value)`
(`none` when the assigned value is not an integer).  Index assignment always
throws; length assignment only allows shrinking. -/
def Handler.set (s : SortedArray T) (p : PropKey) (value : Option Int) :
    Except String (SortedArray T) :=
  match p with
  | .intKey _ => .error "set is an invalid operation on a sorted array"
  | .lengthKey =>
    match value with
    | none => .error "RangeError: Invalid array length"
    | some newLength =>
      if newLength < 0 then .error "RangeError: Invalid array length"
      else if (s.array.length : Int) < newLength then
        .error "RangeError: The length of a SortedArray may not be extended"
      else .ok { s with array := s.array.take newLength.toNat }
  | .other => .ok s

/-- `originalCompareFn(obj, this.array[i].obj)`, guarded by array bounds:
`none` when `this.array[i]` is `undefined`. -/
def SortedArray.cmpAt (cmp : T → T → Int) (arr : List (SANode T)) (obj : T) (i : Int) :
    Option Int :=
  (jsGet arr i).map (fun n => cmp obj n.obj)

/-- The `while (max >= min)` loop of `SortedArray.search`, with the probe
index `cur` as explicit state.  The probe reads `this.array[cur]`; when `cur`
is out of range this is `undefined`, the comparator result is `NaN` for a
numeric comparator, and the loop's final branch throws (reachable only when
the validated `max` equals `length`).  `Math.floor((min + max) / 2)` is
`Int` division, which rounds toward negative infinity. -/
def SortedArray.searchGo (cmp : T → T → Int) (arr : List (SANode T)) (obj : T) :
    Int → Int → Int → Except String (Int × Bool)
  | mn, mx, cur =>
    if mx < mn then .ok (cur, false)
    else
      match SortedArray.cmpAt cmp arr obj cur with
      | none => .error "Compare function cannot return NaN"
      | some compare =>
        if compare = 0 then .ok (cur, true)
        else if compare < 0 then
          SortedArray.searchGo cmp arr obj mn (cur - 1) ((mn + (cur - 1)) / 2)
        else
          SortedArray.searchGo cmp arr obj (cur + 1) mx (((cur + 1) + mx) / 2)
termination_by mn mx cur =>
  ((mx - mn).toNat ⊔ (mx - cur).toNat ⊔ (cur - mn).toNat) + min (mx - mn + 1).toNat 1
decreasing_by all_goals omega

/-- `SortedArray.search`: validate the optional bounds (`min` defaults to `0`,
`max` to `length - 1`; both must be non-negative and `max` at most `length`),
return `{index: 0, found: false}` on an empty array, otherwise sort and run
the binary-search loop from the initial probe `Math.floor(max / 2)`. -/
def SortedArray.search (cmp : T → T → Int) (s : SortedArray T) (obj : T)
    (mn mx : Option Int := none) : Except String (Int × Bool) × SortedArray T :=
  if (match mn with | some m => decide (m < 0) | none => false) then
    (.error "min must be a positive finite integer!", s)
  else if (match mx with | some m => decide (m < 0 ∨ (s.array.length : Int) < m) | none => false) then
    (.error "max must be a positive finite integer and must not be larger than the length of this array!", s)
  else if s.array.length = 0 then
    (.ok (0, false), s)
  else
    let s1 := SortedArray._sort cmp s
    -- const searchObj = this.wrapOne(obj, true): an emulated wrap, whose only
    -- used field is searchObj.obj = obj; the state is unchanged
    let so := SortedArray.wrapOne s1 obj true
    let mnV := mn.getD 0
    let mxV := mx.getD ((so.2.array.length : Int) - 1)
    (SortedArray.searchGo cmp so.2.array so.1.obj mnV mxV (mxV / 2), so.2)

/-- The forward expansion loop of `searchAll`: starting at `i`, collect the
ascending run of indices `≤ mx` whose payloads compare equal to `obj`. -/
def SortedArray.collectUp (cmp : T → T → Int) (arr : List (SANode T)) (obj : T) (mx : Int) :
    Int → List Int
  | i =>
    if i ≤ mx ∧ SortedArray.cmpAt cmp arr obj i = some 0 then
      i :: SortedArray.collectUp cmp arr obj mx (i + 1)
    else []
termination_by i => (mx + 1 - i).toNat
decreasing_by omega

/-- The backward expansion loop of `searchAll`: starting at `i`, walk down
through indices `≥ mn` whose payloads compare equal to `obj`, `unshift`-ing
each, so the collected run comes back in ascending order. -/
def SortedArray.collectDown (cmp : T → T → Int) (arr : List (SANode T)) (obj : T) (mn : Int) :
    Int → List Int
  | i =>
    if mn ≤ i ∧ SortedArray.cmpAt cmp arr obj i = some 0 then
      SortedArray.collectDown cmp arr obj mn (i - 1) ++ [i]
    else []
termination_by i => (i + 1 - mn).toNat
decreasing_by omega

/-- `SortedArray.searchAll`: fill in the default bounds, binary-search, and on
success expand right from the hit (pushing) and left from the hit
(unshifting), giving the contiguous ascending run of matching indices. -/
def SortedArray.searchAll (cmp : T → T → Int) (s : SortedArray T) (obj : T)
    (mn mx : Option Int := none) : Except String (List Int) × SortedArray T :=
  let mnV := mn.getD 0
  let mxV := mx.getD ((s.array.length : Int) - 1)
  match SortedArray.search cmp s obj (some mnV) (some mxV) with
  | (.error e, s1) => (.error e, s1)
  | (.ok (i, found), s1) =>
    if found = false then (.ok [], s1)
    else
      (.ok (SortedArray.collectDown cmp s1.array obj mnV (i - 1) ++
            SortedArray.collectUp cmp s1.array obj mxV i), s1)

/-- `SortedArray.searchExact`: the indices from `searchAll` filtered to those
whose stored payload is the same instance as `obj` (`===`, modelled by
decidable equality on `T`). -/
def SortedArray.searchExact [DecidableEq T] (cmp : T → T → Int) (s : SortedArray T) (obj : T)
    (mn mx : Option Int := none) : Except String (List Int) × SortedArray T :=
  match SortedArray.searchAll cmp s obj mn mx with
  | (.error e, s1) => (.error e, s1)
  | (.ok result, s1) =>
    (.ok (result.filter (fun v =>
        match jsGet s1.array v with
        | some n => decide (n.obj = obj)
        | none => false)), s1)

/-- The `n` argument of `findNth`/`searchNth`: a JavaScript number that may be
`undefined` and that distinguishes `-0` from `0` (`Object.is(-0, n)`). -/
inductive NArg where
  | undef
  | num (val : Int) (isNegZero : Bool)
deriving DecidableEq

/-- The scan `for (++index; index < length && compare(obj, array[index]) === 0;
index++)` of the non-exact negative-direction branch of `searchNth`: the first
index at or above `i` that is out of range or holds a non-matching payload. -/
def SortedArray.scanUp (cmp : T → T → Int) (arr : List (SANode T)) (obj : T) : Int → Int
  | i =>
    if i < (arr.length : Int) ∧ SortedArray.cmpAt cmp arr obj i = some 0 then
      SortedArray.scanUp cmp arr obj (i + 1)
    else i
termination_by i => ((arr.length : Int) + 1 - i).toNat
decreasing_by omega

/-- The scan `for (--index; index >= 0 && compare(obj, array[index]) === 0;
index--)` of the non-exact positive-direction branch of `searchNth`: the first
index at or below `i` that is negative or holds a non-matching payload. -/
def SortedArray.scanDown (cmp : T → T → Int) (arr : List (SANode T)) (obj : T) : Int → Int
  | i =>
    if 0 ≤ i ∧ SortedArray.cmpAt cmp arr obj i = some 0 then
      SortedArray.scanDown cmp arr obj (i - 1)
    else i
termination_by i => (i + 1).toNat
decreasing_by omega

/-- `SortedArray.searchNth`.  `direction` is
`Math.sign(n) || (Object.is(-0, n) ? -1 : 1)` and `offset` is `n` itself.
For `exact`, index into the `searchExact` result list from the end selected by
`direction`; `result[index]` for an out-of-range `index` is `undefined`
(`none`), which the source stores as the returned `index` field (the
`offset >= result.length` guard only stops positive overflow).  For non-exact,
binary-search, then scan to the far end of the equal run in the direction's
origin and apply the signed offset, validating the final index.  When `n` is
`undefined` on the exact path, `undefined >= result.length` is false and the
index arithmetic produces `NaN`, so `result[NaN]` is `undefined`. -/
def SortedArray.searchNth [DecidableEq T] (cmp : T → T → Int) (s : SortedArray T) (obj : T)
    (n : NArg) (mn mx : Option Int := none) (exact : Bool := false) :
    Except String (Option Int × Bool) × SortedArray T :=
  let direction : Int := match n with
    | .undef => 0
    | .num v nz => if v < 0 then -1 else if 0 < v then 1 else if nz then -1 else 1
  if exact then
    match SortedArray.searchExact cmp s obj mn mx with
    | (.error e, s1) => (.error e, s1)
    | (.ok result, s1) =>
      match n with
      | .undef => (.ok (none, true), s1)
      | .num v _ =>
        if (result.length : Int) ≤ v then (.ok (some (-1), false), s1)
        else
          let index := (if direction = 1 then 0 else (result.length : Int) - 1) + v
          (.ok (jsGet result index, true), s1)
  else
    match SortedArray.search cmp s obj mn mx with
    | (.error e, s1) => (.error e, s1)
    | (.ok (i, found), s1) =>
      if found = false ∨ n = .undef then (.ok (some i, found), s1)
      else
        let offset : Int := match n with | .undef => 0 | .num v _ => v
        let index :=
          if direction = -1 then
            SortedArray.scanUp cmp s1.array obj (i + 1) + offset - 1
          else
            SortedArray.scanDown cmp s1.array obj (i - 1) + offset + 1
        let found2 := decide (0 ≤ index) && decide (index < (s1.array.length : Int)) &&
          (SortedArray.cmpAt cmp s1.array obj index == some 0)
        (.ok (some index, found2), s1)

/-- The result record of the find operations: the found payload and its
position in the sorted array. -/
structure FindResult (T : Type) where
  obj : T
  index : Int
deriving DecidableEq

/-- `SortedArray.findNth`: sort, run `searchNth` over the full range, and
return `undefined` (`none`) when not found, else the payload and index at the
reported position.  When `searchNth` reports found with an `undefined` index
(the exact path with an out-of-range negative `n`), `this.array[undefined]`
is `undefined` and reading its `.obj` throws a TypeError. -/
def SortedArray.findNth [DecidableEq T] (cmp : T → T → Int) (s : SortedArray T) (obj : T)
    (n : NArg) (exact : Bool := false) :
    Except String (Option (FindResult T)) × SortedArray T :=
  let s1 := SortedArray._sort cmp s
  match SortedArray.searchNth cmp s1 obj n none none exact with
  | (.error e, s2) => (.error e, s2)
  | (.ok (index, found), s2) =>
    if found = false then (.ok none, s2)
    else
      match index with
      | none => (.error "TypeError: Cannot read property obj of undefined", s2)
      | some i =>
        match jsGet s2.array i with
        | some node => (.ok (some ⟨node.obj, i⟩), s2)
        | none => (.error "TypeError: Cannot read property obj of undefined", s2)

/-- `SortedArray.findAll`: sort, collect matching indices (`searchExact` when
`exact`, otherwise `searchAll`), and map each index to its payload/index
record.  All collected indices are in range, so the map never drops any. -/
def SortedArray.findAll [DecidableEq T] (cmp : T → T → Int) (s : SortedArray T) (obj : T)
    (exact : Bool := false) : Except String (List (FindResult T)) × SortedArray T :=
  let s1 := SortedArray._sort cmp s
  match (if exact then SortedArray.searchExact cmp s1 obj else SortedArray.searchAll cmp s1 obj) with
  | (.error e, s2) => (.error e, s2)
  | (.ok result, s2) =>
    (.ok (result.filterMap (fun v => (jsGet s2.array v).map (fun node => ⟨node.obj, v⟩))), s2)

/-- The result of `findNearest`: either the bracketing neighbors `lt`/`gt`
(each possibly `undefined`) or an equal element `eq`. -/
inductive NearestResult (T : Type) where
  | ltgt (lt gt : Option (FindResult T))
  | eq (res : FindResult T)
deriving DecidableEq

/-- `SortedArray.findNearest`: binary-search the full range.  On a hit, return
the element as `eq`.  Otherwise the failed probe index is an insertion-point
hint: below `0` means `obj` sorts before everything (`ltIndex = -Infinity`,
modelled by `-1` since only `ltIndex < 0` is observed), at or past the length
means it sorts after everything (`gtIndex = Infinity`, modelled by `length`),
and in the middle a final comparison decides on which side of the probe `obj`
falls. -/
def SortedArray.findNearest (cmp : T → T → Int) (s : SortedArray T) (obj : T) :
    Except String (NearestResult T) × SortedArray T :=
  match SortedArray.search cmp s obj with
  | (.error e, s1) => (.error e, s1)
  | (.ok (i, found), s1) =>
    if found then
      match jsGet s1.array i with
      | some node => (.ok (.eq ⟨node.obj, i⟩), s1)
      | none => (.error "TypeError: Cannot read property obj of undefined", s1)
    else
      let len : Int := s1.array.length
      let lg : Int × Int :=
        if i < 0 then (-1, 0)
        else if len ≤ i then (len - 1, len)
        else
          match jsGet s1.array i with
          | some node =>
            let compare := cmp obj node.obj
            (i - (if compare < 0 then 1 else 0), i + (if 0 < compare then 1 else 0))
          | none => (-1, len)
      let lt := if lg.1 < 0 then none else
        (jsGet s1.array lg.1).map (fun node => FindResult.mk node.obj lg.1)
      let gt := if len ≤ lg.2 then none else
        (jsGet s1.array lg.2).map (fun node => FindResult.mk node.obj lg.2)
      (.ok (.ltgt lt gt), s1)

/-- A JavaScript value as `CompareFunctions.DefaultSort` observes it:
`undefined`, a string (a list of UTF-16 code units), or any other defined
value, carrying an identity (for `===`) and its `String(...)` form.  Two
strings are `===` exactly when their code units agree; two `other` values are
`===` exactly when their identities agree (and then their string forms agree
too, identity determining the value). -/
inductive JSVal where
  | undef
  | str (units : List Nat)
  | other (id : Nat) (toStr : List Nat)
deriving DecidableEq

/-- `String(v)` for a defined value. The `undef` case is unreachable in
`DefaultSort` (it returns before stringifying an undefined operand). -/
def JSVal.jsToString : JSVal → List Nat
  | .undef => []
  | .str u => u
  | .other _ ts => ts

/-- The `do { ... } while (compare === 0 && i < len)` loop of `DefaultSort`:
compare code units pairwise, stopping at the first difference or when the next
position reaches the length of either string; the value is the last computed
`ai - bi`.  Both strings are nonempty when the loop is entered. -/
def charLoop : List Nat → List Nat → Int
  | x :: xs, y :: ys =>
    let compare : Int := (x : Int) - (y : Int)
    if compare = 0 ∧ xs ≠ [] ∧ ys ≠ [] then charLoop xs ys else compare
  | _, _ => 0

/-- `SortedArray.CompareFunctions.DefaultSort`: `0` on `===` operands,
`undefined` sorts after everything, otherwise convert both operands to strings
and compare them code unit by code unit, with the shorter string first when
the loop exhausts the common prefix. -/
def DefaultSort (a b : JSVal) : Int :=
  if a = b then 0
  else if a = .undef then 1
  else if b = .undef then -1
  else
    let sa := a.jsToString
    let sb := b.jsToString
    if sa = sb then 0
    else if sa.length = 0 then -1
    else if sb.length = 0 then 1
    else
      let compare := charLoop sa sb
      if compare = 0 then (if sa.length < sb.length then -1 else 1) else compare

/-- Strict lexicographic order on code-unit (or code-point) sequences: a
proper prefix precedes, otherwise the first differing position decides. -/
def seqLt : List Nat → List Nat → Bool
  | [], [] => false
  | [], _ :: _ => true
  | _ :: _, [] => false
  | x :: xs, y :: ys => x < y || (x = y && seqLt xs ys)

/-- Modelled from the spec: the code-point sequence of a UTF-16 code-unit
sequence.  A high surrogate (`0xD800`–`0xDBFF`) followed by a low surrogate
(`0xDC00`–`0xDFFF`) decodes to a single supplementary code point; any other
unit (including a lone surrogate) is its own code point. -/
def decodeUTF16 : List Nat → List Nat
  | u :: v :: rest =>
    if 0xD800 ≤ u ∧ u ≤ 0xDBFF ∧ 0xDC00 ≤ v ∧ v ≤ 0xDFFF then
      (0x10000 + (u - 0xD800) * 0x400 + (v - 0xDC00)) :: decodeUTF16 rest
    else
      u :: decodeUTF16 (v :: rest)
  | l => l

/-- Modelled from the spec: "compare lexicographically by code-point
sequence" — the strict order the specification ascribes to `DefaultSort` on
defined operands. -/
def specCodePointLt (sa sb : List Nat) : Bool :=
  seqLt (decodeUTF16 sa) (decodeUTF16 sb)

/-- One public mutation step of a `SortedArray`, as used to state invariants
over arbitrary operation interleavings: an `addAll`, a `removeAll` (whose
partial removals survive a thrown RangeError), or a sort pass (`sort()` with
no comparator argument). -/
inductive Op (T : Type) where
  | addAll (items : List T)
  | removeAll (indices : List Int)
  | sortPass
deriving DecidableEq

/-- The state reached by one `Op`. -/
def applyOp (cmp : T → T → Int) (s : SortedArray T) : Op T → SortedArray T
  | .addAll items => (SortedArray.addAll s items).2
  | .removeAll indices => (SortedArray.removeAll cmp s indices).2
  | .sortPass => (SortedArray.sort cmp s none).2

/-- The state reached by a sequence of `Op`s. -/
def runOps (cmp : T → T → Int) (s : SortedArray T) (ops : List (Op T)) : SortedArray T :=
  ops.foldl (applyOp cmp) s

/-- A payload type for concrete instantiations: `pid` is the object identity
(`===`), `val` the value a key-based comparator looks at. -/
structure Payload where
  pid : Nat
  val : Int
deriving DecidableEq

/-- `SortedArray.CompareFunctions.NumericSort`: `(a, b) => a - b`. -/
def NumericSort (a b : Int) : Int := a - b

/-- A comparator induced by an integer key, the shape of the repository's own
`NumericSort` and of the comparators in its test-suite
(`(a, b) => a[0] - b[0]`). -/
def keyCmp (k : T → Int) (a b : T) : Int := NumericSort (k a) (k b)

/-- States reachable by the public API: no sort is in progress, every node's
insertion `index` is below the counter, and when the array is flagged sorted
it really is sorted by the augmented comparator. -/
def GoodState (cmp : T → T → Int) (s : SortedArray T) : Prop :=
  s.sorting = false ∧
  (∀ n ∈ s.array, n.index < s.insertionCounter) ∧
  (s.sorted = true → s.array.Pairwise (fun a b => SortedArray.compareFn cmp a b ≤ 0))

theorem keyCmp_augLe_trans (k : T → Int) (a b c : SANode T)
    (hab : SortedArray.compareFn (keyCmp k) a b ≤ 0)
    (hbc : SortedArray.compareFn (keyCmp k) b c ≤ 0) :
    SortedArray.compareFn (keyCmp k) a c ≤ 0 := by
  simp only [SortedArray.compareFn, keyCmp, NumericSort] at *
  split_ifs at * <;> omega

theorem keyCmp_augLe_total (k : T → Int) (a b : SANode T) :
    SortedArray.compareFn (keyCmp k) a b ≤ 0 ∨ SortedArray.compareFn (keyCmp k) b a ≤ 0 := by
  simp only [SortedArray.compareFn, keyCmp, NumericSort]
  split_ifs <;> omega

theorem mergeSort_augLe_pairwise (k : T → Int) (l : List (SANode T)) :
    (l.mergeSort (fun a b => decide (SortedArray.compareFn (keyCmp k) a b ≤ 0))).Pairwise
      (fun a b => SortedArray.compareFn (keyCmp k) a b ≤ 0) := by
  have h := @List.sorted_mergeSort (SANode T)
    (fun a b => decide (SortedArray.compareFn (keyCmp k) a b ≤ 0))
    (fun a b c hab hbc => by
      simp only [decide_eq_true_eq] at *
      exact keyCmp_augLe_trans k a b c hab hbc)
    (fun a b => by
      simp only [Bool.or_eq_true, decide_eq_true_eq]
      exact keyCmp_augLe_total k a b) l
  exact h.imp (fun hab => by simpa using hab)

/-- After `_sort`, a good state's array is sorted by the augmented comparator
and is a permutation of the original array. -/
theorem sortedView (k : T → Int) (s : SortedArray T)
    (hso : s.sorting = false)
    (hok : s.sorted = true → s.array.Pairwise (fun a b => SortedArray.compareFn (keyCmp k) a b ≤ 0)) :
    (SortedArray._sort (keyCmp k) s).array.Pairwise
        (fun a b => SortedArray.compareFn (keyCmp k) a b ≤ 0) ∧
      (SortedArray._sort (keyCmp k) s).array.Perm s.array := by
  unfold SortedArray._sort
  split_ifs with h
  · exact ⟨mergeSort_augLe_pairwise k s.array, List.mergeSort_perm s.array _⟩
  · refine ⟨?_, List.Perm.refl _⟩
    rcases Bool.eq_false_or_eq_true s.sorted with hs | hs
    · exact hok hs
    · exact absurd ⟨hs, hso⟩ h

/-- `_sort` only touches `array` and `sorted`. -/
theorem _sort_fields (cmp : T → T → Int) (s : SortedArray T) :
    (SortedArray._sort cmp s).sorted = true ∧
      (SortedArray._sort cmp s).sorting = s.sorting ∧
      (SortedArray._sort cmp s).insertionCounter = s.insertionCounter := by
  unfold SortedArray._sort
  split_ifs <;> simp

/-- `wrapOne` leaves the `sorted` and `sorting` flags alone. -/
theorem wrapOne_flags (s : SortedArray T) (obj : T) (e : Bool) (inc : Int) :
    ((s.wrapOne obj e inc).2).sorted = s.sorted ∧ ((s.wrapOne obj e inc).2).sorting = s.sorting := by
  unfold SortedArray.wrapOne SortedArray.reduceInsertionOrders
  dsimp only
  constructor <;> split_ifs <;> rfl

/-- `addLoop` leaves the `sorted` and `sorting` flags alone. -/
theorem addLoop_flags (s : SortedArray T) (items : List T) :
    (SortedArray.addLoop s items).sorted = s.sorted ∧
      (SortedArray.addLoop s items).sorting = s.sorting := by
  induction items generalizing s with
  | nil => exact ⟨rfl, rfl⟩
  | cons item rest ih =>
    unfold SortedArray.addLoop
    have h := wrapOne_flags s item false 0
    have h2 := ih { (s.wrapOne item false 0).2 with array := (s.wrapOne item false 0).2.array ++ [(s.wrapOne item false 0).1] }
    simpa [h.1, h.2] using h2

/-- `addAll` leaves the collection dirty and does not touch the reentrancy
guard. -/
theorem addAll_flags (s : SortedArray T) (items : List T) :
    ((SortedArray.addAll s items).2).sorted = false ∧
      ((SortedArray.addAll s items).2).sorting = s.sorting := by
  have h := addLoop_flags { s with sorted := false } items
  exact ⟨h.1, h.2⟩

/-- `wrap` leaves the flags alone. -/
theorem wrap_flags (s : SortedArray T) (objs : List T) :
    ((s.wrap objs).2).sorted = s.sorted ∧ ((s.wrap objs).2).sorting = s.sorting := by
  induction objs generalizing s with
  | nil => exact ⟨rfl, rfl⟩
  | cons o rest ih =>
    unfold SortedArray.wrap
    have h := wrapOne_flags s o false 0
    have h2 := ih (s.wrapOne o false 0).2
    simp only []
    exact ⟨h2.1.trans h.1, h2.2.trans h.2⟩

theorem construct_flags (elements : Option (List T)) :
    (SortedArray.construct elements).sorted = false ∧
      (SortedArray.construct elements).sorting = false := by
  unfold SortedArray.construct
  match elements with
  | none => exact ⟨rfl, rfl⟩
  | some els =>
    have h := wrap_flags
      (T := T) { array := [], sorted := false, sorting := false, insertionCounter := MIN_SAFE_INTEGER } els
    exact ⟨rfl, h.2⟩

theorem keyCmp_le_of_augLe (k : T → Int) (a b : SANode T)
    (h : SortedArray.compareFn (keyCmp k) a b ≤ 0) : keyCmp k a.obj b.obj ≤ 0 := by
  simp only [SortedArray.compareFn, keyCmp, NumericSort] at *
  split_ifs at h <;> omega

theorem addFold_flags (addss : List (List T)) (s : SortedArray T)
    (h : s.sorting = false ∧ s.sorted = false) :
    (addss.foldl (fun s items => (SortedArray.addAll s items).2) s).sorting = false ∧
      (addss.foldl (fun s items => (SortedArray.addAll s items).2) s).sorted = false := by
  induction addss generalizing s with
  | nil => exact h
  | cons items rest ih =>
    exact ih _ ⟨(addAll_flags s items).2.trans h.1, (addAll_flags s items).1⟩

/-- **C1**: for every key-induced comparator, every initial element list and
every sequence of `addAll` calls, the backing storage that `_sort` presents to
order-observing operations is sorted by the augmented comparator, and the
`toArray` snapshot is non-decreasing under the payload comparator. -/
theorem C1_sorted_observation (k : T → Int) (elements : Option (List T))
    (addss : List (List T)) :
    ((SortedArray._sort (keyCmp k)
        (addss.foldl (fun s items => (SortedArray.addAll s items).2)
          (SortedArray.construct elements))).array.Pairwise
      (fun a b => SortedArray.compareFn (keyCmp k) a b ≤ 0)) ∧
    ((SortedArray.toArray (keyCmp k)
        (addss.foldl (fun s items => (SortedArray.addAll s items).2)
          (SortedArray.construct elements))).1.Pairwise
      (fun a b => keyCmp k a b ≤ 0)) := by
  have hc := construct_flags (T := T) elements
  have hf := addFold_flags addss (SortedArray.construct elements) ⟨hc.2, hc.1⟩
  have hsv := sortedView k
    (addss.foldl (fun s items => (SortedArray.addAll s items).2) (SortedArray.construct elements))
    hf.1 (fun hs => absurd (hf.2 ▸ hs) (by simp))
  refine ⟨hsv.1, ?_⟩
  simp only [SortedArray.toArray, SortedArray.unwrap, List.pairwise_map]
  exact hsv.1.imp (fun h => keyCmp_le_of_augLe k _ _ h)

/-- Every node holding payload `a` carries a smaller insertion `index` than
every node holding payload `b` — the state-level form of "`a` was inserted
before `b`". -/
def TieOrder (s : SortedArray T) (a b : T) : Prop :=
  ∀ na ∈ s.array, ∀ nb ∈ s.array, na.obj = a → nb.obj = b → na.index < nb.index

theorem countP_lt_countP {p q : α → Bool} (l : List α)
    (himp : ∀ a ∈ l, p a = true → q a = true) (x : α) (hx : x ∈ l)
    (hqx : q x = true) (hpx : p x = false) : l.countP p < l.countP q := by
  induction l with
  | nil => cases hx
  | cons y l' ih =>
    rw [List.countP_cons, List.countP_cons]
    rcases List.mem_cons.mp hx with rfl | hx'
    · have := List.countP_mono_left (l := l') (fun a ha hpa => himp a (List.mem_cons_of_mem _ ha) hpa)
      simp [hqx, hpx]
      omega
    · have h2 := ih (fun a ha hpa => himp a (List.mem_cons_of_mem _ ha) hpa) hx'
      have h3 : p y = true → q y = true := himp y (List.mem_cons_self _ _)
      cases hpy : p y <;> cases hqy : q y <;> simp_all <;> omega

theorem countP_lt_length (p : α → Bool) (l : List α) (x : α) (hx : x ∈ l)
    (hpx : p x = false) : l.countP p < l.length := by
  induction l with
  | nil => cases hx
  | cons y l' ih =>
    rw [List.countP_cons]
    rcases List.mem_cons.mp hx with rfl | hx'
    · have := List.countP_le_length p (l := l')
      simp [hpx]
      omega
    · have h2 := ih hx'
      simp only [List.length_cons]
      split_ifs <;> omega

/-- The rank a node gets in the index-sorted copy is below the array length. -/
theorem rankByIndex_lt_length (arr : List (SANode T)) (p : Nat) (hp : p < arr.length) :
    SortedArray.rankByIndex arr p arr[p] < arr.length := by
  unfold SortedArray.rankByIndex
  have hmem : (p, arr[p]) ∈ arr.enum := by
    rw [List.mem_enum_iff_getElem?]
    simp [List.getElem?_eq_getElem hp]
  have := countP_lt_length
    (fun q => decide (q.2.index < arr[p].index ∨ (q.2.index = arr[p].index ∧ q.1 < p)))
    arr.enum (p, arr[p]) hmem
    (decide_eq_false
      (show ¬(arr[p].index < arr[p].index ∨ arr[p].index = arr[p].index ∧ p < p) by omega))
  simpa using this

/-- Renumbering ranks respect the strict order of the old indices: a node with
a strictly smaller `index` gets a strictly smaller rank. -/
theorem rankByIndex_strictMono (arr : List (SANode T)) (p q : Nat)
    (hp : p < arr.length) (hq : q < arr.length)
    (hlt : arr[p].index < arr[q].index) :
    SortedArray.rankByIndex arr p arr[p] < SortedArray.rankByIndex arr q arr[q] := by
  unfold SortedArray.rankByIndex
  refine countP_lt_countP arr.enum ?_ (p, arr[p]) ?_ ?_ ?_
  · intro m _ hm
    simp only [decide_eq_true_eq] at *
    omega
  · rw [List.mem_enum_iff_getElem?]
    simp [List.getElem?_eq_getElem hp]
  · simp only [decide_eq_true_eq]
    omega
  · simp only [decide_eq_false_iff_not]
    omega

/-- Membership in the renumbered array: each member is a member of the
original array at some position, with its `index` replaced by its rank. -/
theorem mem_reduce_array (s : SortedArray T) (m : SANode T)
    (hm : m ∈ (SortedArray.reduceInsertionOrders s).array) :
    ∃ p, ∃ hp : p < s.array.length,
      m = { s.array[p] with
            index := MIN_SAFE_INTEGER + SortedArray.rankByIndex s.array p s.array[p] } := by
  unfold SortedArray.reduceInsertionOrders at hm
  simp only [List.mem_map] at hm
  obtain ⟨pn, hpn, rfl⟩ := hm
  obtain ⟨p1, p2⟩ := pn
  rw [List.mem_enum_iff_getElem?] at hpn
  have hlt : p1 < s.array.length := by
    by_contra hge
    rw [List.getElem?_eq_none (by simpa using hge)] at hpn
    cases hpn
  rw [List.getElem?_eq_getElem hlt] at hpn
  obtain rfl : s.array[p1] = p2 := by injection hpn
  exact ⟨p1, hlt, rfl⟩

/-- Renumbering preserves `TieOrder`. -/
theorem reduce_tieOrder (s : SortedArray T) (a b : T) (h : TieOrder s a b) :
    TieOrder (SortedArray.reduceInsertionOrders s) a b := by
  intro na hna nb hnb ha hb
  obtain ⟨p, hp, rfl⟩ := mem_reduce_array s na hna
  obtain ⟨q, hq, rfl⟩ := mem_reduce_array s nb hnb
  have hidx : s.array[p].index < s.array[q].index :=
    h s.array[p] (List.getElem_mem hp) s.array[q] (List.getElem_mem hq) ha hb
  have := rankByIndex_strictMono s.array p q hp hq hidx
  simp only []
  omega

/-- Renumbering leaves every node below the new counter. -/
theorem reduce_below (s : SortedArray T) :
    ∀ m ∈ (SortedArray.reduceInsertionOrders s).array,
      m.index < (SortedArray.reduceInsertionOrders s).insertionCounter := by
  intro m hm
  obtain ⟨p, hp, rfl⟩ := mem_reduce_array s m hm
  have := rankByIndex_lt_length s.array p hp
  show MIN_SAFE_INTEGER + _ < (SortedArray.reduceInsertionOrders s).insertionCounter
  unfold SortedArray.reduceInsertionOrders
  simp only []
  omega

/-- The array after `_sort` is a permutation of the array before. -/
theorem _sort_perm (cmp : T → T → Int) (s : SortedArray T) :
    (SortedArray._sort cmp s).array.Perm s.array := by
  unfold SortedArray._sort
  split_ifs
  · exact List.mergeSort_perm s.array _
  · exact List.Perm.refl _

/-- What a genuine (non-emulated) `wrapOne` guarantees when every node is
below the counter: the new node's `index` is above every node of the
resulting state, the counter stays above everything, the payload is kept, and
`TieOrder` facts survive. -/
theorem wrapOne_insert_spec (s : SortedArray T) (obj : T)
    (hb : ∀ n ∈ s.array, n.index < s.insertionCounter) :
    (∀ m ∈ (s.wrapOne obj).2.array, m.index < (s.wrapOne obj).1.index) ∧
      (s.wrapOne obj).1.index < (s.wrapOne obj).2.insertionCounter ∧
      (∀ m ∈ (s.wrapOne obj).2.array, m.index < (s.wrapOne obj).2.insertionCounter) ∧
      (s.wrapOne obj).1.obj = obj ∧
      (∀ a b : T, TieOrder s a b → TieOrder (s.wrapOne obj).2 a b) := by
  unfold SortedArray.wrapOne
  dsimp only
  split_ifs with h0 h1
  · have hred := reduce_below (T := T) { s with insertionCounter := s.insertionCounter + 1 }
    have htie := reduce_tieOrder (T := T) { s with insertionCounter := s.insertionCounter + 1 }
    dsimp only
    refine ⟨?_, by omega, ?_, rfl, ?_⟩
    · intro m hm
      exact hred m hm
    · intro m hm
      have := hred m hm
      omega
    · intro a b hab
      exact htie a b (fun na hna nb hnb ha hbe => hab na hna nb hnb ha hbe)
  · dsimp only
    refine ⟨?_, by omega, ?_, rfl, ?_⟩
    · intro m hm
      have := hb m hm
      omega
    · intro m hm
      have := hb m hm
      omega
    · intro a b hab
      exact fun na hna nb hnb ha hbe => hab na hna nb hnb ha hbe
  · cases h0 rfl

/-- Appending wrapped items keeps every node below the counter and preserves
`TieOrder s a b` as long as `a` is not among the appended items (`b` may be:
a fresh `b` node sits above every existing node). -/
theorem addLoop_pres (a b : T) (items : List T) (s : SortedArray T)
    (hb : ∀ n ∈ s.array, n.index < s.insertionCounter)
    (ht : TieOrder s a b) (hano : a ∉ items) :
    (∀ n ∈ (SortedArray.addLoop s items).array,
        n.index < (SortedArray.addLoop s items).insertionCounter) ∧
      TieOrder (SortedArray.addLoop s items) a b := by
  induction items generalizing s with
  | nil => exact ⟨hb, ht⟩
  | cons item rest ih =>
    have spec := wrapOne_insert_spec s item hb
    unfold SortedArray.addLoop
    apply ih
    · intro n hn
      rcases List.mem_append.mp hn with h | h
      · exact spec.2.2.1 n h
      · simp only [List.mem_singleton] at h
        subst h
        exact spec.2.1
    · intro na hna nb hnb ha hbe
      rcases List.mem_append.mp hna with hna' | hna'
      · rcases List.mem_append.mp hnb with hnb' | hnb'
        · exact spec.2.2.2.2 a b ht na hna' nb hnb' ha hbe
        · simp only [List.mem_singleton] at hnb'
          subst hnb'
          exact spec.1 na hna'
      · simp only [List.mem_singleton] at hna'
        subst hna'
        have hia : item = a := spec.2.2.2.1.symm.trans ha
        exact absurd (show a ∈ item :: rest by rw [← hia]; exact List.mem_cons_self item rest) hano
    · exact fun hmem => hano (List.mem_cons_of_mem _ hmem)

/-- The array left behind by the removal loop is a sublist of the input. -/
theorem removeLoop_sublist (idxs : List Int) (arr : List (SANode T)) (i : Int) :
    (SortedArray.removeLoop arr idxs i).2.1.Sublist arr := by
  induction idxs generalizing arr i with
  | nil => exact List.Sublist.refl arr
  | cons j rest ih =>
    unfold SortedArray.removeLoop
    dsimp only
    split_ifs with h
    · exact ((ih (arr.eraseIdx (j - i).toNat) (i + 1)).trans (List.eraseIdx_sublist arr _))
    · exact List.Sublist.refl arr

/-- The state `removeAll` leaves behind: the sorted state with its array
replaced by the removal loop's output (on success and on a thrown RangeError
alike). -/
theorem removeAll_state (cmp : T → T → Int) (s : SortedArray T) (idxs : List Int) :
    (SortedArray.removeAll cmp s idxs).2 =
      { SortedArray._sort cmp s with
        array := (SortedArray.removeLoop (SortedArray._sort cmp s).array
          (idxs.mergeSort (fun a b => decide (a ≤ b))) 0).2.1 } := by
  unfold SortedArray.removeAll
  rcases h : SortedArray.removeLoop (SortedArray._sort cmp s).array
    (idxs.mergeSort (fun a b => decide (a ≤ b))) 0 with ⟨acc, arr2, err⟩
  cases err <;> simp [h]

/-- Each public mutation step preserves `GoodState` and — when it does not
insert `a` again — `TieOrder`. -/
theorem applyOp_pres (k : T → Int) (a b : T) (op : Op T) (s : SortedArray T)
    (hg : GoodState (keyCmp k) s) (ht : TieOrder s a b)
    (hop : ∀ its, op = Op.addAll its → a ∉ its) :
    GoodState (keyCmp k) (applyOp (keyCmp k) s op) ∧ TieOrder (applyOp (keyCmp k) s op) a b := by
  obtain ⟨hso, hbc, hok⟩ := hg
  cases op with
  | addAll items =>
    have hal := addLoop_pres a b items { s with sorted := false } hbc ht (hop items rfl)
    have hfl := addAll_flags s items
    refine ⟨⟨hfl.2.trans hso, hal.1, ?_⟩, hal.2⟩
    intro hs
    exact absurd (hfl.1 ▸ hs) (by simp)
  | removeAll idxs =>
    have hsv := sortedView k s hso hok
    have hst := removeAll_state (keyCmp k) s idxs
    have hsub := removeLoop_sublist (T := T)
      (idxs.mergeSort (fun a b => decide (a ≤ b))) (SortedArray._sort (keyCmp k) s).array 0
    have hmem : ∀ n ∈ (applyOp (keyCmp k) s (Op.removeAll idxs)).array, n ∈ s.array := by
      intro n hn
      rw [show applyOp (keyCmp k) s (Op.removeAll idxs) = (SortedArray.removeAll (keyCmp k) s idxs).2 from rfl,
        hst] at hn
      exact ((_sort_perm (keyCmp k) s).mem_iff).mp (hsub.subset hn)
    refine ⟨⟨?_, ?_, ?_⟩, ?_⟩
    · show (SortedArray.removeAll (keyCmp k) s idxs).2.sorting = false
      rw [hst]
      exact (_sort_fields (keyCmp k) s).2.1.trans hso
    · intro n hn
      have h1 := hbc n (hmem n hn)
      have h2 : (applyOp (keyCmp k) s (Op.removeAll idxs)).insertionCounter = s.insertionCounter := by
        show (SortedArray.removeAll (keyCmp k) s idxs).2.insertionCounter = _
        rw [hst]
        exact (_sort_fields (keyCmp k) s).2.2
      omega
    · intro _
      show (SortedArray.removeAll (keyCmp k) s idxs).2.array.Pairwise _
      rw [hst]
      exact hsv.1.sublist hsub
    · intro na hna nb hnb ha hbe
      exact ht na (hmem na hna) nb (hmem nb hnb) ha hbe
  | sortPass =>
    have hsv := sortedView k { s with sorted := false } hso (by simp)
    have hperm := _sort_perm (keyCmp k) { s with sorted := false }
    have hmem : ∀ n ∈ (applyOp (keyCmp k) s Op.sortPass).array, n ∈ s.array := by
      intro n hn
      exact hperm.mem_iff.mp hn
    refine ⟨⟨?_, ?_, ?_⟩, ?_⟩
    · exact (_sort_fields (keyCmp k) { s with sorted := false }).2.1.trans hso
    · intro n hn
      have h1 := hbc n (hmem n hn)
      have h2 : (SortedArray._sort (keyCmp k) { s with sorted := false }).insertionCounter =
          s.insertionCounter :=
        (_sort_fields (keyCmp k) { s with sorted := false }).2.2
      show n.index < (SortedArray._sort (keyCmp k) { s with sorted := false }).insertionCounter
      omega
    · intro _
      exact hsv.1
    · intro na hna nb hnb ha hbe
      exact ht na (hmem na hna) nb (hmem nb hnb) ha hbe

/-- Running a sequence of mutation steps that never re-insert `a` preserves
`GoodState` and `TieOrder`. -/
theorem runOps_pres (k : T → Int) (a b : T) (ops : List (Op T)) (s : SortedArray T)
    (hg : GoodState (keyCmp k) s) (ht : TieOrder s a b)
    (hops : ∀ op ∈ ops, ∀ its, op = Op.addAll its → a ∉ its) :
    GoodState (keyCmp k) (runOps (keyCmp k) s ops) ∧ TieOrder (runOps (keyCmp k) s ops) a b := by
  induction ops generalizing s with
  | nil => exact ⟨hg, ht⟩
  | cons op rest ih =>
    have h1 := applyOp_pres k a b op s hg ht (hops op (List.mem_cons_self _ _))
    exact ih (applyOp (keyCmp k) s op) h1.1 h1.2
      (fun op' hop' => hops op' (List.mem_cons_of_mem _ hop'))

/-- In a snapshot of a good state where `TieOrder s a b` holds, every
occurrence of `a` precedes every occurrence of `b`. -/
theorem toArray_sep (k : T → Int) (a b : T) (hab : k a = k b) (hne : a ≠ b)
    (s : SortedArray T) (hg : GoodState (keyCmp k) s) (ht : TieOrder s a b) :
    ∀ i j (hi : i < (SortedArray.toArray (keyCmp k) s).1.length)
      (hj : j < (SortedArray.toArray (keyCmp k) s).1.length),
      (SortedArray.toArray (keyCmp k) s).1[i] = a →
      (SortedArray.toArray (keyCmp k) s).1[j] = b → i < j := by
  obtain ⟨hso, _, hok⟩ := hg
  have hsv := sortedView k s hso hok
  intro i j hi hj hia hjb
  simp only [SortedArray.toArray, SortedArray.unwrap, List.length_map] at hi hj
  have hia' : (SortedArray._sort (keyCmp k) s).array[i].obj = a := by
    simpa [SortedArray.toArray, SortedArray.unwrap] using hia
  have hjb' : (SortedArray._sort (keyCmp k) s).array[j].obj = b := by
    simpa [SortedArray.toArray, SortedArray.unwrap] using hjb
  by_contra hij
  have hji : j ≤ i := by omega
  rcases Nat.lt_or_ge j i with hlt | hge
  · have hpw := List.pairwise_iff_getElem.mp hsv.1 j i hj hi hlt
    have htie := ht ((SortedArray._sort (keyCmp k) s).array[i])
      (hsv.2.subset (List.getElem_mem hi))
      ((SortedArray._sort (keyCmp k) s).array[j])
      (hsv.2.subset (List.getElem_mem hj)) hia' hjb'
    simp only [SortedArray.compareFn, keyCmp, NumericSort, hia', hjb'] at hpw
    rw [if_pos (by omega)] at hpw
    omega
  · have : i = j := by omega
    subst this
    exact hne (hia'.symm.trans hjb' ▸ rfl)

/-- **C2**: insertion-order tie-break.  Start from any good state that does
not yet hold `b`; the nodes holding `a` are therefore exactly the ones
inserted before `b`.  Insert `b` (within any `addAll` batch not containing
`a`), then run any interleaving of further insertions (never re-inserting
`a`), removals and sort passes.  After every prefix of that interleaving,
every occurrence of `a` occupies a smaller index than every occurrence of `b`
in the `toArray` snapshot. -/
theorem C2_insertion_tie_break (k : T → Int) (a b : T)
    (hab : k a = k b) (hne : a ≠ b) (s : SortedArray T)
    (hg : GoodState (keyCmp k) s)
    (hnob : ∀ n ∈ s.array, n.obj ≠ b)
    (items : List T) (hano : a ∉ items)
    (rest : List (Op T))
    (hrest : ∀ op ∈ rest, ∀ its, op = Op.addAll its → a ∉ its) :
    ∀ pre suf, rest = pre ++ suf →
      ∀ i j
        (hi : i < (SortedArray.toArray (keyCmp k)
          (runOps (keyCmp k) (SortedArray.addAll s items).2 pre)).1.length)
        (hj : j < (SortedArray.toArray (keyCmp k)
          (runOps (keyCmp k) (SortedArray.addAll s items).2 pre)).1.length),
        (SortedArray.toArray (keyCmp k)
          (runOps (keyCmp k) (SortedArray.addAll s items).2 pre)).1[i] = a →
        (SortedArray.toArray (keyCmp k)
          (runOps (keyCmp k) (SortedArray.addAll s items).2 pre)).1[j] = b →
        i < j := by
  intro pre suf hsplit
  have ht0 : TieOrder s a b := fun na hna nb hnb ha hbe => (hnob nb hnb hbe).elim
  have hadd := addLoop_pres a b items { s with sorted := false } hg.2.1 ht0 hano
  have hg1 : GoodState (keyCmp k) (SortedArray.addAll s items).2 :=
    ⟨(addAll_flags s items).2.trans hg.1, hadd.1,
      fun hs => absurd ((addAll_flags s items).1 ▸ hs) (by simp)⟩
  have hrun := runOps_pres k a b pre (SortedArray.addAll s items).2 hg1 hadd.2
    (fun op hop => hrest op (hsplit ▸ List.mem_append_left suf hop))
  exact toArray_sep k a b hab hne _ hrun.1 hrun.2

/-- A concrete one-element state used by witnesses: payload identity 0 with
value 5, insertion index well below the counter. -/
def c2State : SortedArray Payload :=
  { array := [⟨⟨0, 5⟩, -100⟩], sorted := false, sorting := false, insertionCounter := 0 }

theorem C2_insertion_tie_break_witness :
    (Payload.val ⟨0, 5⟩ = Payload.val ⟨1, 5⟩) ∧
    ((⟨0, 5⟩ : Payload) ≠ ⟨1, 5⟩) ∧
    GoodState (keyCmp Payload.val) c2State ∧
    (∀ n ∈ c2State.array, n.obj ≠ (⟨1, 5⟩ : Payload)) ∧
    ((⟨0, 5⟩ : Payload) ∉ [(⟨1, 5⟩ : Payload)]) ∧
    (0 : Nat) < 1 := by
  refine ⟨rfl, by decide, ⟨rfl, by decide, fun hs => nomatch hs⟩, by decide, by decide, ?_⟩
  have h := C2_insertion_tie_break Payload.val ⟨0, 5⟩ ⟨1, 5⟩ rfl (by decide)
    c2State ⟨rfl, by decide, fun hs => nomatch hs⟩ (by decide) [⟨1, 5⟩] (by decide) [] (by simp)
    [] [] rfl
  have e1 : (SortedArray.toArray (keyCmp Payload.val)
      (runOps (keyCmp Payload.val) (SortedArray.addAll c2State [⟨1, 5⟩]).2 [])).1 =
      [⟨0, 5⟩, ⟨1, 5⟩] := by
    simp [SortedArray.toArray, SortedArray.addAll, SortedArray.addLoop, SortedArray.wrapOne,
      SortedArray._sort, SortedArray.unwrap, runOps, List.mergeSort, SortedArray.compareFn,
      keyCmp, NumericSort, MAX_SAFE_INTEGER, c2State]
  exact h 0 1 (by rw [e1]; decide) (by rw [e1]; decide)
    (by simp only [e1]; rfl) (by simp only [e1]; rfl)

theorem reduce_length (s : SortedArray T) :
    (SortedArray.reduceInsertionOrders s).array.length = s.array.length := by
  simp [SortedArray.reduceInsertionOrders]

theorem reduce_get (s : SortedArray T) (p : Nat) (hp : p < s.array.length) :
    (SortedArray.reduceInsertionOrders s).array.get ⟨p, by rw [reduce_length]; exact hp⟩ =
      { s.array.get ⟨p, hp⟩ with
        index := MIN_SAFE_INTEGER +
          SortedArray.rankByIndex s.array p (s.array.get ⟨p, hp⟩) } := by
  simp [SortedArray.reduceInsertionOrders, List.get_eq_getElem, List.getElem_map,
    List.getElem_enum]

/-- **C7**: the renumbering pass resets the counter to
`MIN_SAFE_INTEGER + length` (comfortably inside the safe-integer range given
the 2^32 - 1 bound on array lengths), keeps every payload at its position,
reassigns sequence numbers strictly monotonically in the old sequence order
(so every comparator-equal group keeps its relative order), and the new
numbers are exactly the dense run `MIN_SAFE_INTEGER, …,
MIN_SAFE_INTEGER + length - 1`.  Moreover `wrapOne` at the near-overflow
threshold triggers the pass and leaves both the fresh index and the counter
inside the safe range. -/
theorem C7_renumbering (s : SortedArray T)
    (hnd : (s.array.map SANode.index).Nodup)
    (hlen : s.array.length ≤ 2 ^ 32 - 1) :
    (SortedArray.reduceInsertionOrders s).insertionCounter =
        MIN_SAFE_INTEGER + s.array.length ∧
    MIN_SAFE_INTEGER + (s.array.length : Int) < MAX_SAFE_INTEGER ∧
    (SortedArray.reduceInsertionOrders s).array.map SANode.obj = s.array.map SANode.obj ∧
    (∀ p q (hp : p < s.array.length) (hq : q < s.array.length),
      (s.array.get ⟨p, hp⟩).index < (s.array.get ⟨q, hq⟩).index →
      ((SortedArray.reduceInsertionOrders s).array.get
          ⟨p, by rw [reduce_length]; exact hp⟩).index <
        ((SortedArray.reduceInsertionOrders s).array.get
          ⟨q, by rw [reduce_length]; exact hq⟩).index) ∧
    ((SortedArray.reduceInsertionOrders s).array.map SANode.index).Perm
      ((List.range s.array.length).map (fun r => MIN_SAFE_INTEGER + Int.ofNat r)) ∧
    (∀ x : T, MAX_SAFE_INTEGER ≤ s.insertionCounter + 1 →
      (s.wrapOne x).1.index = MIN_SAFE_INTEGER + s.array.length ∧
      (s.wrapOne x).2.insertionCounter = MIN_SAFE_INTEGER + s.array.length + 1 ∧
      (s.wrapOne x).2.insertionCounter < MAX_SAFE_INTEGER) := by
  have hlen' : s.array.length ≤ 4294967295 := by
    norm_num at hlen
    exact hlen
  have hsafe : MIN_SAFE_INTEGER + (s.array.length : Int) + 1 < MAX_SAFE_INTEGER := by
    unfold MIN_SAFE_INTEGER MAX_SAFE_INTEGER
    norm_num
    omega
  have hidx : ∀ p q (hp : p < s.array.length) (hq : q < s.array.length), p ≠ q →
      (s.array.get ⟨p, hp⟩).index ≠ (s.array.get ⟨q, hq⟩).index := by
    intro p q hp hq hpq h
    have h1 : (s.array.map SANode.index).get ⟨p, by simpa using hp⟩ =
        (s.array.map SANode.index).get ⟨q, by simpa using hq⟩ := by
      simpa [List.getElem_map, List.get_eq_getElem] using h
    rw [List.get_eq_getElem, List.get_eq_getElem] at h1
    exact hpq (hnd.getElem_inj_iff.mp h1)
  refine ⟨rfl, by omega, ?_, ?_, ?_, ?_⟩
  · unfold SortedArray.reduceInsertionOrders
    simp only [List.map_map]
    calc s.array.enum.map (fun pn =>
          ({ pn.2 with index := MIN_SAFE_INTEGER +
              SortedArray.rankByIndex s.array pn.1 pn.2 } : SANode T).obj) =
        s.array.enum.map (fun pn => pn.2.obj) := rfl
      _ = (s.array.enum.map Prod.snd).map SANode.obj := by rw [List.map_map]; rfl
      _ = s.array.map SANode.obj := by rw [List.enum_map_snd]
  · intro p q hp hq hlt
    rw [reduce_get s p hp, reduce_get s q hq]
    have := rankByIndex_strictMono s.array p q hp hq (by simpa [List.get_eq_getElem] using hlt)
    simp only [List.get_eq_getElem] at *
    omega
  · have hL : (SortedArray.reduceInsertionOrders s).array.map SANode.index =
        s.array.enum.map (fun pn =>
          MIN_SAFE_INTEGER + (SortedArray.rankByIndex s.array pn.1 pn.2 : Int)) := by
      unfold SortedArray.reduceInsertionOrders
      simp [List.map_map]
    have hlenL : ((SortedArray.reduceInsertionOrders s).array.map SANode.index).length =
        s.array.length := by
      simp [reduce_length]
    have hnodup : ((SortedArray.reduceInsertionOrders s).array.map SANode.index).Nodup := by
      refine List.pairwise_iff_getElem.mpr ?_
      intro i j hi hj hij
      have hi2 : i < s.array.length := by omega
      have hj2 : j < s.array.length := by omega
      have hgi : ((SortedArray.reduceInsertionOrders s).array.map SANode.index)[i] =
          MIN_SAFE_INTEGER + (SortedArray.rankByIndex s.array i (s.array.get ⟨i, hi2⟩) : Int) := by
        rw [List.getElem_map]
        have := reduce_get s i hi2
        simp only [List.get_eq_getElem] at this
        rw [this]
        simp [List.get_eq_getElem]
      have hgj : ((SortedArray.reduceInsertionOrders s).array.map SANode.index)[j] =
          MIN_SAFE_INTEGER + (SortedArray.rankByIndex s.array j (s.array.get ⟨j, hj2⟩) : Int) := by
        rw [List.getElem_map]
        have := reduce_get s j hj2
        simp only [List.get_eq_getElem] at this
        rw [this]
        simp [List.get_eq_getElem]
      rw [hgi, hgj]
      have hne := hidx i j hi2 hj2 (by omega)
      rcases lt_or_gt_of_ne hne with hlt | hgt
      · have := rankByIndex_strictMono s.array i j hi2 hj2
          (by simpa [List.get_eq_getElem] using hlt)
        simp only [List.get_eq_getElem] at *
        omega
      · have := rankByIndex_strictMono s.array j i hj2 hi2
          (by simpa [List.get_eq_getElem] using hgt)
        simp only [List.get_eq_getElem] at *
        omega
    have hsubset : ((SortedArray.reduceInsertionOrders s).array.map SANode.index) ⊆
        (List.range s.array.length).map (fun r => MIN_SAFE_INTEGER + Int.ofNat r) := by
      intro x hx
      rw [hL] at hx
      obtain ⟨pn, hpn, rfl⟩ := List.mem_map.mp hx
      obtain ⟨p1, p2⟩ := pn
      rw [List.mem_enum_iff_getElem?] at hpn
      have hp1 : p1 < s.array.length := by
        by_contra hge
        rw [List.getElem?_eq_none (by simpa using hge)] at hpn
        cases hpn
      rw [List.getElem?_eq_getElem hp1] at hpn
      obtain rfl : s.array[p1] = p2 := by injection hpn
      refine List.mem_map.mpr ⟨SortedArray.rankByIndex s.array p1 s.array[p1], ?_, rfl⟩
      simpa using rankByIndex_lt_length s.array p1 hp1
    have hperm := (List.subperm_of_subset hnodup hsubset).perm_of_length_le
      (by rw [List.length_map, List.length_range, hlenL])
    exact hperm
  · intro x htrig
    have hcnt : (SortedArray.reduceInsertionOrders
        (T := T) { s with insertionCounter := s.insertionCounter + 1 }).insertionCounter =
        MIN_SAFE_INTEGER + s.array.length := rfl
    unfold SortedArray.wrapOne
    dsimp only
    rw [if_pos rfl, if_pos (show MAX_SAFE_INTEGER ≤ s.insertionCounter + 1 by omega)]
    refine ⟨hcnt, ?_, ?_⟩
    · dsimp only
      rw [hcnt]
    · dsimp only
      rw [hcnt]
      omega

/-- A concrete two-element state with out-of-order, distinct insertion
indices, used by the renumbering witness. -/
def c7State : SortedArray Payload :=
  { array := [⟨⟨0, 1⟩, 7⟩, ⟨⟨1, 2⟩, 3⟩], sorted := true, sorting := false,
    insertionCounter := 8 }

theorem C7_renumbering_witness :
    (c7State.array.map SANode.index).Nodup ∧ c7State.array.length ≤ 2 ^ 32 - 1 ∧
      (SortedArray.reduceInsertionOrders c7State).insertionCounter =
        MIN_SAFE_INTEGER + c7State.array.length :=
  ⟨by decide, by norm_num [c7State], (C7_renumbering c7State (by decide) (by norm_num [c7State])).1⟩

/-- **C8**: every structurally-disallowed mutation — `push`, `concat`,
`reverse`, `unshift`, `fill`, `copyWithin`, direct index assignment through
the proxy, `sort` with a replacement comparator, and `splice` with
replacement items — reports the documented synchronous error and returns the
state unchanged. -/
theorem C8_disallowed_mutations (cmp : T → T → Int) (s : SortedArray T) :
    (∀ x : T, SortedArray.push s x =
      (.error "push is an invalid operation on a sorted array", s)) ∧
    (∀ items, SortedArray.concat s items =
      (.error "concat is an invalid operation on a sorted array", s)) ∧
    (SortedArray.reverse s =
      (.error "reverse is an invalid operation on a sorted array", s)) ∧
    (∀ items, SortedArray.unshift s items =
      (.error "unshift is an invalid operation on a sorted array", s)) ∧
    (∀ v start stop, SortedArray.fill s v start stop =
      (.error "fill is an invalid operation on a sorted array", s)) ∧
    (∀ target start stop, SortedArray.copyWithin s target start stop =
      (.error "copyWithin is an invalid operation on a sorted array", s)) ∧
    (∀ i v, Handler.set s (.intKey i) v =
      .error "set is an invalid operation on a sorted array") ∧
    (∀ f, SortedArray.sort cmp s (some f) =
      (.error "sort is an invalid operation on a sorted array when providing a new compare function", s)) ∧
    (∀ start dc items, items ≠ [] → SortedArray.splice cmp s start dc items =
      (.error "splice is an invalid operation on a sorted array when providing replacement items", s)) := by
  refine ⟨fun _ => rfl, fun _ => rfl, rfl, fun _ => rfl, fun _ _ _ => rfl, fun _ _ _ => rfl,
    fun _ _ => rfl, fun _ => rfl, ?_⟩
  intro start dc items hne
  unfold SortedArray.splice
  rw [if_pos]
  cases items with
  | nil => exact absurd rfl hne
  | cons x xs => simp

theorem C8_disallowed_mutations_witness :
    ([(⟨0, 1⟩ : Payload)] ≠ []) ∧
      SortedArray.splice (keyCmp Payload.val) c7State 0 none [⟨0, 1⟩] =
        (.error "splice is an invalid operation on a sorted array when providing replacement items",
          c7State) :=
  ⟨by decide,
    (C8_disallowed_mutations (keyCmp Payload.val) c7State).2.2.2.2.2.2.2.2 0 none
      [⟨0, 1⟩] (by decide)⟩

/-- `_sort` of a state with an empty array leaves it empty. -/
theorem _sort_array_nil (cmp : T → T → Int) (s : SortedArray T) (h : s.array = []) :
    (SortedArray._sort cmp s).array = [] := by
  unfold SortedArray._sort
  split_ifs <;> simp [h]

/-- **C10**: on an empty collection, `pop()` and `shift()` hit the TypeError
branch (dereferencing `.obj` of `undefined`) instead of returning `undefined`
as their `Array` counterparts do; on a non-empty collection they return the
last resp. first payload of the sorted view. -/
theorem C10_pop_shift (cmp : T → T → Int) (s : SortedArray T) :
    (s.array = [] →
      SortedArray.pop cmp s =
        (.error "TypeError: Cannot read property obj of undefined", SortedArray._sort cmp s) ∧
      SortedArray.shift cmp s =
        (.error "TypeError: Cannot read property obj of undefined", SortedArray._sort cmp s)) ∧
    (∀ v, (SortedArray.toArray cmp s).1.getLast? = some v →
      (SortedArray.pop cmp s).1 = .ok v) ∧
    (∀ v, (SortedArray.toArray cmp s).1.head? = some v →
      (SortedArray.shift cmp s).1 = .ok v) := by
  refine ⟨?_, ?_, ?_⟩
  · intro h
    have hnil := _sort_array_nil cmp s h
    constructor
    · unfold SortedArray.pop
      dsimp only
      rw [hnil]
      rfl
    · unfold SortedArray.shift
      dsimp only
      rw [hnil]
      rfl
  · intro v hv
    simp only [SortedArray.toArray, SortedArray.unwrap, List.getLast?_map] at hv
    unfold SortedArray.pop
    dsimp only
    rcases hlast : (SortedArray._sort cmp s).array.getLast? with _ | n
    · rw [hlast] at hv
      cases hv
    · rw [hlast] at hv
      simp only [Option.map_some'] at hv
      simp [hlast]
      exact Option.some.inj hv
  · intro v hv
    simp only [SortedArray.toArray, SortedArray.unwrap, List.head?_map] at hv
    unfold SortedArray.shift
    dsimp only
    rcases hhead : (SortedArray._sort cmp s).array.head? with _ | n
    · rw [hhead] at hv
      cases hv
    · rw [hhead] at hv
      simp only [Option.map_some'] at hv
      simp [hhead]
      exact Option.some.inj hv

theorem C10_pop_shift_witness :
    (((SortedArray.construct (T := Payload) none).array = []) ∧
      (SortedArray.pop (keyCmp Payload.val) (SortedArray.construct none)).1 =
        .error "TypeError: Cannot read property obj of undefined") ∧
    ((SortedArray.toArray (keyCmp Payload.val) c7State).1.getLast? = some ⟨1, 2⟩ ∧
      (SortedArray.pop (keyCmp Payload.val) c7State).1 = .ok ⟨1, 2⟩) ∧
    ((SortedArray.toArray (keyCmp Payload.val) c7State).1.head? = some ⟨0, 1⟩ ∧
      (SortedArray.shift (keyCmp Payload.val) c7State).1 = .ok ⟨0, 1⟩) := by
  refine ⟨⟨rfl, ?_⟩, ⟨by decide, ?_⟩, ⟨by decide, ?_⟩⟩
  · rw [(C10_pop_shift (keyCmp Payload.val) (SortedArray.construct none)).1 rfl |>.1]
  · exact (C10_pop_shift (keyCmp Payload.val) c7State).2.1 ⟨1, 2⟩ (by decide)
  · exact (C10_pop_shift (keyCmp Payload.val) c7State).2.2 ⟨0, 1⟩ (by decide)


theorem seqLt_irrefl : ∀ l : List Nat, seqLt l l = false
  | [] => rfl
  | x :: xs => by simp [seqLt, seqLt_irrefl xs]

theorem seqLt_append_right : ∀ (xs t : List Nat), t ≠ [] → seqLt xs (xs ++ t) = true
  | [], t, ht => by
    cases t with
    | nil => exact absurd rfl ht
    | cons y ys => rfl
  | x :: xs, t, ht => by simp [seqLt, seqLt_append_right xs t ht]

/-- The string-comparison tail of `DefaultSort` (the `charLoop` result with
the shorter-first fallback) decides the code-unit lexicographic order on a
pair of nonempty, distinct strings. -/
theorem charLoop_spec : ∀ (xs ys : List Nat), xs ≠ [] → ys ≠ [] → xs ≠ ys →
    ((if charLoop xs ys = 0 then (if xs.length < ys.length then (-1 : Int) else 1)
      else charLoop xs ys) < 0 ↔ seqLt xs ys = true) ∧
    (0 < (if charLoop xs ys = 0 then (if xs.length < ys.length then (-1 : Int) else 1)
      else charLoop xs ys) ↔ seqLt ys xs = true)
  | [], _, hxs, _, _ => absurd rfl hxs
  | _ :: _, [], _, hys, _ => absurd rfl hys
  | x :: xs, y :: ys, _, _, hne => by
    by_cases hxy : x = y
    · subst hxy
      by_cases hx : xs = []
      · subst hx
        cases ys with
        | nil => exact absurd rfl hne
        | cons z zs => simp [charLoop, seqLt]
      · by_cases hy : ys = []
        · subst hy
          cases xs with
          | nil => exact absurd rfl hne
          | cons z zs => simp [charLoop, seqLt]
        · have hne' : xs ≠ ys := fun h => hne (by rw [h])
          have ih := charLoop_spec xs ys hx hy hne'
          have hstep : charLoop (x :: xs) (x :: ys) = charLoop xs ys := by
            simp [charLoop, hx, hy]
          have hiflen : (if (x :: xs).length < (x :: ys).length then (-1 : Int) else 1) =
              (if xs.length < ys.length then (-1 : Int) else 1) :=
            if_congr (by simp) rfl rfl
          have hseq1 : seqLt (x :: xs) (x :: ys) = seqLt xs ys := by simp [seqLt]
          have hseq2 : seqLt (x :: ys) (x :: xs) = seqLt ys xs := by simp [seqLt]
          rw [hstep, hiflen, hseq1, hseq2]
          exact ih
    · have hloop : charLoop (x :: xs) (y :: ys) = (x : Int) - (y : Int) := by
        simp only [charLoop]
        rw [if_neg]
        intro hcon
        exact hxy (by omega)
      have hc0 : ¬ ((x : Int) - (y : Int) = 0) := fun h => hxy (by omega)
      rw [hloop, if_neg hc0]
      have hyx : y ≠ x := fun hh => hxy hh.symm
      constructor
      · simp only [seqLt, Bool.or_eq_true, Bool.and_eq_true, decide_eq_true_eq]
        constructor
        · intro h
          exact Or.inl (by omega)
        · rintro (h | ⟨h, _⟩)
          · omega
          · exact absurd h hxy
      · simp only [seqLt, Bool.or_eq_true, Bool.and_eq_true, decide_eq_true_eq]
        constructor
        · intro h
          exact Or.inl (by omega)
        · rintro (h | ⟨h, _⟩)
          · omega
          · exact absurd h hyx

/-- **C9 (amended)**: the default comparator sorts `undefined` after every
defined operand; for defined operands it converts both to strings and
compares them by UTF-16 **code-unit** sequence (`charCodeAt`), not by code
points: zero exactly when the string forms agree, negative exactly when the
first string is code-unit-lexicographically smaller — in particular whenever
it is a proper prefix of the second — and positive exactly when it is
larger. -/
theorem C9_default_sort_amended (a b : JSVal) (ha : a ≠ .undef) (hb : b ≠ .undef) :
    DefaultSort .undef .undef = 0 ∧
    DefaultSort .undef b = 1 ∧
    DefaultSort a .undef = -1 ∧
    (DefaultSort a b = 0 ↔ a.jsToString = b.jsToString) ∧
    (DefaultSort a b < 0 ↔ seqLt a.jsToString b.jsToString = true) ∧
    (0 < DefaultSort a b ↔ seqLt b.jsToString a.jsToString = true) ∧
    (∀ t, t ≠ [] → b.jsToString = a.jsToString ++ t → DefaultSort a b < 0) := by
  have hu1 : DefaultSort .undef b = 1 := by
    unfold DefaultSort
    rw [if_neg (fun h => hb h.symm), if_pos rfl]
  have hu2 : DefaultSort a .undef = -1 := by
    unfold DefaultSort
    rw [if_neg ha, if_neg ha, if_pos rfl]
  have main : (DefaultSort a b = 0 ↔ a.jsToString = b.jsToString) ∧
      (DefaultSort a b < 0 ↔ seqLt a.jsToString b.jsToString = true) ∧
      (0 < DefaultSort a b ↔ seqLt b.jsToString a.jsToString = true) := by
    unfold DefaultSort
    by_cases hab : a = b
    · subst hab
      simp [seqLt_irrefl]
    · rw [if_neg hab, if_neg ha, if_neg hb]
      by_cases hs : a.jsToString = b.jsToString
      · simp [hs, seqLt_irrefl]
      · rw [if_neg hs]
        by_cases hea : a.jsToString.length = 0
        · have hanil : a.jsToString = [] := List.length_eq_zero.mp hea
          have hbne : b.jsToString ≠ [] := fun h => hs (hanil.trans h.symm)
          rw [if_pos hea]
          rcases hbv : b.jsToString with _ | ⟨z, zs⟩
          · exact absurd hbv hbne
          · rw [hanil]
            refine ⟨by simp, by simp [seqLt], by simp [seqLt]⟩
        · rw [if_neg hea]
          by_cases heb : b.jsToString.length = 0
          · have hbnil : b.jsToString = [] := List.length_eq_zero.mp heb
            have hane : a.jsToString ≠ [] := fun h => hs (h.trans hbnil.symm)
            rw [if_pos heb]
            rcases hav : a.jsToString with _ | ⟨z, zs⟩
            · exact absurd hav hane
            · rw [hbnil]
              refine ⟨by simp, by simp [seqLt], by simp [seqLt]⟩
          · rw [if_neg heb]
            have hane : a.jsToString ≠ [] := fun h => hea (by simp [h])
            have hbne : b.jsToString ≠ [] := fun h => heb (by simp [h])
            have hcs := charLoop_spec a.jsToString b.jsToString hane hbne hs
            refine ⟨?_, hcs.1, hcs.2⟩
            constructor
            · intro h0
              exfalso
              rcases Decidable.em (charLoop a.jsToString b.jsToString = 0) with hc | hc
              · rw [if_pos hc] at h0
                split_ifs at h0 <;> omega
              · rw [if_neg hc] at h0
                exact hc h0
            · intro h
              exact absurd h hs
  refine ⟨rfl, hu1, hu2, main.1, main.2.1, main.2.2, ?_⟩
  intro t htne hbt
  rw [main.2.1, hbt]
  exact seqLt_append_right a.jsToString t htne

/-- **C9 (counterexample)**: the claim's "code-point sequence" reading fails
on surrogate pairs: `""` precedes `"𐀀"` (that is, U+10000)
in code-point order, yet `DefaultSort` returns a positive number, because it
compares the raw UTF-16 code units `0xE000` and `0xD800`. -/
theorem C9_default_sort_counterexample :
    DefaultSort (.str [0xE000]) (.str [0xD800, 0xDC00]) = 0x800 ∧
    specCodePointLt (JSVal.jsToString (.str [0xE000]))
      (JSVal.jsToString (.str [0xD800, 0xDC00])) = true ∧
    ¬ DefaultSort (.str [0xE000]) (.str [0xD800, 0xDC00]) < 0 := by
  refine ⟨?_, by decide, ?_⟩ <;> decide

theorem C9_default_sort_amended_witness :
    ((JSVal.str [0x61] : JSVal) ≠ .undef) ∧ ((JSVal.str [0x61, 0x62] : JSVal) ≠ .undef) ∧
    (DefaultSort (.str [0x61]) (.str [0x61, 0x62]) < 0 ↔
      seqLt (JSVal.jsToString (.str [0x61])) (JSVal.jsToString (.str [0x61, 0x62])) = true) :=
  ⟨by decide, by decide,
    (C9_default_sort_amended (.str [0x61]) (.str [0x61, 0x62]) (by decide) (by decide)).2.2.2.2.1⟩

theorem cmpAt_some_elim (cmp : T → T → Int) (arr : List (SANode T)) (obj : T) (p c : Int)
    (h : SortedArray.cmpAt cmp arr obj p = some c) :
    0 ≤ p ∧ p < arr.length ∧
      ∃ hp : p.toNat < arr.length, cmp obj (arr.get ⟨p.toNat, hp⟩).obj = c := by
  unfold SortedArray.cmpAt jsGet at h
  split_ifs at h with h0
  · cases h
  · rcases hg : arr[p.toNat]? with _ | nd
    · rw [hg] at h
      cases h
    · rw [hg] at h
      simp only [Option.map_some'] at h
      have hp : p.toNat < arr.length := by
        by_contra hge
        rw [List.getElem?_eq_none (by omega)] at hg
        cases hg
      refine ⟨by omega, by omega, hp, ?_⟩
      rw [List.getElem?_eq_getElem hp] at hg
      obtain rfl : arr[p.toNat] = nd := by injection hg
      simpa [List.get_eq_getElem] using h

theorem cmpAt_of_get (cmp : T → T → Int) (arr : List (SANode T)) (obj : T) (p : Nat)
    (hp : p < arr.length) :
    SortedArray.cmpAt cmp arr obj (p : Int) = some (cmp obj (arr.get ⟨p, hp⟩).obj) := by
  unfold SortedArray.cmpAt jsGet
  rw [if_neg (by omega)]
  rw [show ((p : Int).toNat = p) by omega]
  rw [List.getElem?_eq_getElem hp]
  simp [List.get_eq_getElem]

theorem cmpAt_some_exists (cmp : T → T → Int) (arr : List (SANode T)) (obj : T) (p : Int)
    (h0 : 0 ≤ p) (hlt : p < arr.length) :
    ∃ c, SortedArray.cmpAt cmp arr obj p = some c := by
  have hp : p.toNat < arr.length := by omega
  refine ⟨cmp obj (arr.get ⟨p.toNat, hp⟩).obj, ?_⟩
  have := cmpAt_of_get cmp arr obj p.toNat hp
  rwa [show ((p.toNat : Int) = p) by omega] at this

/-- The binary-search loop, soundness form: any run that terminates without
error either reports a genuine match, or correctly reports that no index of
the tracked original window `[mn0, mx0]` matches.  The window hypothesis says
every match of `[mn0, mx0]` lies in the current `[mn, mx]`; the first probe
`⌊mx/2⌋` may lie outside the window without endangering this. -/
theorem searchGo_sound (k : T → Int) (arr : List (SANode T)) (obj : T)
    (hs : ∀ (i j : Nat) (hi : i < arr.length) (hj : j < arr.length), i ≤ j →
      k (arr.get ⟨i, hi⟩).obj ≤ k (arr.get ⟨j, hj⟩).obj)
    (mn0 mx0 : Int) :
    ∀ (mn mx cur : Int),
      (∀ p : Int, 0 ≤ p → p < arr.length → mn0 ≤ p → p ≤ mx0 →
        SortedArray.cmpAt (keyCmp k) arr obj p = some 0 → mn ≤ p ∧ p ≤ mx) →
      ∀ i found, SortedArray.searchGo (keyCmp k) arr obj mn mx cur = .ok (i, found) →
        (found = true → 0 ≤ i ∧ i < arr.length ∧
          SortedArray.cmpAt (keyCmp k) arr obj i = some 0) ∧
        (found = false → ∀ p : Int, 0 ≤ p → p < arr.length → mn0 ≤ p → p ≤ mx0 →
          SortedArray.cmpAt (keyCmp k) arr obj p ≠ some 0) := by
  intro mn mx cur
  induction mn, mx, cur using SortedArray.searchGo.induct (keyCmp k) arr obj with
  | case1 mn mx cur hlt =>
    intro hinv i found heq
    unfold SortedArray.searchGo at heq
    rw [if_pos hlt] at heq
    simp only [Except.ok.injEq, Prod.mk.injEq] at heq
    obtain ⟨h1, h2⟩ := heq
    subst h1
    subst h2
    refine ⟨fun h => (nomatch h), fun _ p hp0 hplen hpm0 hpm1 hpc => ?_⟩
    have := hinv p hp0 hplen hpm0 hpm1 hpc
    omega
  | case2 mn mx cur hge hnone =>
    intro hinv i found heq
    unfold SortedArray.searchGo at heq
    rw [if_neg hge, hnone] at heq
    simp at heq
  | case3 mn mx cur hge hsome0 =>
    intro hinv i found heq
    unfold SortedArray.searchGo at heq
    rw [if_neg hge, hsome0] at heq
    simp only [Except.ok.injEq, Prod.mk.injEq, if_pos] at heq
    obtain ⟨h1, h2⟩ := heq
    subst h1
    subst h2
    have hb := cmpAt_some_elim (keyCmp k) arr obj cur 0 hsome0
    exact ⟨fun _ => ⟨hb.1, hb.2.1, hsome0⟩, fun h => (nomatch h)⟩
  | case4 mn mx cur hge compare hsome hnz hneg ih =>
    intro hinv i found heq
    unfold SortedArray.searchGo at heq
    rw [if_neg hge, hsome] at heq
    dsimp only at heq
    rw [if_neg hnz, if_pos hneg] at heq
    refine ih ?_ i found heq
    intro p hp0 hplen hpm0 hpm1 hpc
    have hold := hinv p hp0 hplen hpm0 hpm1 hpc
    refine ⟨hold.1, ?_⟩
    by_contra hgt
    obtain ⟨hc0, hclen, hcp, hcv⟩ := cmpAt_some_elim (keyCmp k) arr obj cur compare hsome
    obtain ⟨hq0, hqlen, hpp, hpv⟩ := cmpAt_some_elim (keyCmp k) arr obj p 0 hpc
    have hord := hs cur.toNat p.toNat hcp hpp (by omega)
    simp only [keyCmp, NumericSort] at hcv hpv
    omega
  | case5 mn mx cur hge compare hsome hnz hnneg ih =>
    intro hinv i found heq
    unfold SortedArray.searchGo at heq
    rw [if_neg hge, hsome] at heq
    dsimp only at heq
    rw [if_neg hnz, if_neg hnneg] at heq
    refine ih ?_ i found heq
    intro p hp0 hplen hpm0 hpm1 hpc
    have hold := hinv p hp0 hplen hpm0 hpm1 hpc
    refine ⟨?_, hold.2⟩
    by_contra hlt2
    obtain ⟨hc0, hclen, hcp, hcv⟩ := cmpAt_some_elim (keyCmp k) arr obj cur compare hsome
    obtain ⟨hq0, hqlen, hpp, hpv⟩ := cmpAt_some_elim (keyCmp k) arr obj p 0 hpc
    have hord := hs p.toNat cur.toNat hpp hcp (by omega)
    simp only [keyCmp, NumericSort] at hcv hpv
    omega

theorem pairwise_k_getElem (k : T → Int) (A : List (SANode T))
    (hpw : A.Pairwise (fun a b => SortedArray.compareFn (keyCmp k) a b ≤ 0)) :
    ∀ (i j : Nat) (hi : i < A.length) (hj : j < A.length), i ≤ j →
      k (A.get ⟨i, hi⟩).obj ≤ k (A.get ⟨j, hj⟩).obj := by
  intro i j hi hj hij
  rcases Nat.eq_or_lt_of_le hij with rfl | hlt
  · exact le_refl _
  · have h1 := List.pairwise_iff_getElem.mp hpw i j hi hj hlt
    have h2 := keyCmp_le_of_augLe k _ _ h1
    simp only [keyCmp, NumericSort, List.get_eq_getElem] at *
    omega

/-- With in-range bounds and a non-empty array, `search` sorts and enters the
loop at probe `⌊max/2⌋`. -/
theorem search_run (k : T → Int) (s : SortedArray T) (obj : T) (mn mx : Int)
    (hmn : 0 ≤ mn) (hmx0 : 0 ≤ mx) (hmx : mx ≤ s.array.length) (hne : s.array.length ≠ 0) :
    SortedArray.search (keyCmp k) s obj (some mn) (some mx) =
      (SortedArray.searchGo (keyCmp k) (SortedArray._sort (keyCmp k) s).array obj mn mx (mx / 2),
        SortedArray._sort (keyCmp k) s) := by
  unfold SortedArray.search
  dsimp only
  rw [if_neg (by simp only [decide_eq_true_eq]; omega)]
  rw [if_neg (by simp only [decide_eq_true_eq]; push_neg; omega)]
  rw [if_neg hne]
  rfl

/-- **C3 (amended)**: with valid bounds (`0 ≤ min ≤ max ≤ length`) on a good
state, `point_search` is sound: a reported hit lies within `[0, length)` of
the sorted storage — though possibly below `min`, since the initial probe is
`⌊max/2⌋` regardless of `min` — and its payload compares equal to the key; a
reported miss means no index of `[min, max]` holds a payload comparing equal
to the key. -/
theorem C3_point_search_amended (k : T → Int) (s : SortedArray T) (obj : T) (mn mx : Int)
    (hgs : s.sorting = false)
    (hok : s.sorted = true →
      s.array.Pairwise (fun a b => SortedArray.compareFn (keyCmp k) a b ≤ 0))
    (h0 : 0 ≤ mn) (hmnx : mn ≤ mx) (hmx : mx ≤ s.array.length) :
    ∀ i found, (SortedArray.search (keyCmp k) s obj (some mn) (some mx)).1 = .ok (i, found) →
      (found = true → 0 ≤ i ∧ i < s.array.length ∧
        SortedArray.cmpAt (keyCmp k) (SortedArray._sort (keyCmp k) s).array obj i = some 0) ∧
      (found = false → ∀ p : Int, 0 ≤ p → p < s.array.length → mn ≤ p → p ≤ mx →
        SortedArray.cmpAt (keyCmp k) (SortedArray._sort (keyCmp k) s).array obj p ≠ some 0) := by
  intro i found heq
  by_cases hlen : s.array.length = 0
  · unfold SortedArray.search at heq
    dsimp only at heq
    rw [if_neg (by simp only [decide_eq_true_eq]; omega)] at heq
    rw [if_neg (by simp only [decide_eq_true_eq]; push_neg; omega)] at heq
    rw [if_pos hlen] at heq
    simp only [Except.ok.injEq, Prod.mk.injEq] at heq
    obtain ⟨h1, h2⟩ := heq
    subst h1
    subst h2
    refine ⟨fun h => (nomatch h), fun _ p hp0 hplen _ _ => ?_⟩
    rw [hlen] at hplen
    exact absurd hplen (by omega)
  · rw [search_run k s obj mn mx h0 (by omega) hmx hlen] at heq
    dsimp only at heq
    have hsv := sortedView k s hgs hok
    have hlenA : (SortedArray._sort (keyCmp k) s).array.length = s.array.length :=
      hsv.2.length_eq
    have hmono := pairwise_k_getElem k _ hsv.1
    have hsound := searchGo_sound k (SortedArray._sort (keyCmp k) s).array obj hmono mn mx
      mn mx (mx / 2) (fun p _ _ hm0 hm1 _ => ⟨hm0, hm1⟩) i found heq
    refine ⟨?_, ?_⟩
    · intro h
      have := hsound.1 h
      rw [hlenA] at this
      exact this
    · intro h p hp0 hplen hpmn hpmx
      exact hsound.2 h p hp0 (by rw [hlenA]; exact hplen) hpmn hpmx

/-- A concrete, already-sorted two-element state for the search
counterexamples and witnesses. -/
def c3State : SortedArray Payload :=
  { array := [⟨⟨0, 5⟩, -10⟩, ⟨⟨1, 9⟩, -9⟩], sorted := true, sorting := false,
    insertionCounter := 0 }

/-- **C3 (counterexample)**: searching value 5 restricted to `[1, 1]` on the
sorted storage `[5, 9]` probes index `⌊1/2⌋ = 0`, finds the key there, and
returns index `0` — outside the requested window `[min, max] = [1, 1]`. -/
theorem C3_point_search_counterexample :
    (SortedArray.search (keyCmp Payload.val) c3State ⟨7, 5⟩ (some 1) (some 1)).1 =
      .ok (0, true) ∧ ¬ ((1 : Int) ≤ 0) := by
  have hA : SortedArray._sort (keyCmp Payload.val) c3State = c3State := rfl
  constructor
  · rw [search_run Payload.val c3State ⟨7, 5⟩ 1 1 (by norm_num) (by norm_num)
      (by norm_num [c3State]) (by norm_num [c3State])]
    dsimp only
    rw [hA, SortedArray.searchGo.eq_def]
    norm_num [SortedArray.cmpAt, jsGet, c3State, keyCmp, NumericSort]
  · decide

theorem C3_point_search_amended_witness :
    c3State.sorting = false ∧ (0 : Int) ≤ 0 ∧ (0 : Int) ≤ 2 ∧
      (2 : Int) ≤ c3State.array.length ∧
      (SortedArray.search (keyCmp Payload.val) c3State ⟨7, 5⟩ (some 0) (some 2)).1 =
        .ok (0, true) ∧
      ((0 : Int) ≤ 0 ∧ (0 : Int) < c3State.array.length ∧
        SortedArray.cmpAt (keyCmp Payload.val)
          (SortedArray._sort (keyCmp Payload.val) c3State).array (⟨7, 5⟩ : Payload) 0 = some 0) := by
  have heval : (SortedArray.search (keyCmp Payload.val) c3State ⟨7, 5⟩ (some 0) (some 2)).1 =
      .ok (0, true) := by
    have hA : SortedArray._sort (keyCmp Payload.val) c3State = c3State := rfl
    rw [search_run Payload.val c3State ⟨7, 5⟩ 0 2 (by norm_num) (by norm_num)
      (by norm_num [c3State]) (by norm_num [c3State])]
    dsimp only
    rw [hA, SortedArray.searchGo.eq_def]
    norm_num [SortedArray.cmpAt, jsGet, c3State, keyCmp, NumericSort]
    rw [SortedArray.searchGo.eq_def]
    norm_num [SortedArray.cmpAt, jsGet, c3State, keyCmp, NumericSort]
  refine ⟨rfl, by decide, by decide, by decide, heval, ?_⟩
  exact ((C3_point_search_amended Payload.val c3State ⟨7, 5⟩ 0 2 rfl (fun _ => by decide)
    (by decide) (by decide) (by decide)) 0 true heval).1 rfl

theorem cmpAt_some_jsGet (cmp : T → T → Int) (arr : List (SANode T)) (obj : T) (p c : Int)
    (h : SortedArray.cmpAt cmp arr obj p = some c) :
    ∃ nd, jsGet arr p = some nd ∧ cmp obj nd.obj = c := by
  unfold SortedArray.cmpAt at h
  rcases hg : jsGet arr p with _ | nd
  · rw [hg] at h
    cases h
  · rw [hg] at h
    simp only [Option.map_some', Option.some.injEq] at h
    exact ⟨nd, rfl, h⟩

/-- The binary-search loop in its standard regime (the probe inside the
window, as happens for the full-range searches of `findNearest` and
`findNth`): it terminates without error, and on a miss the final probe index
`i` splits the array — everything at or below `i` is strictly below the key,
everything above `i` strictly above. -/
theorem searchGo_std (k : T → Int) (arr : List (SANode T)) (obj : T)
    (hs : ∀ (i j : Nat) (hi : i < arr.length) (hj : j < arr.length), i ≤ j →
      k (arr.get ⟨i, hi⟩).obj ≤ k (arr.get ⟨j, hj⟩).obj) :
    ∀ (mn mx cur : Int),
      0 ≤ mn → mn - 1 ≤ mx → mx < arr.length →
      ((mn ≤ cur ∧ cur ≤ mx) ∨ (mx = mn - 1 ∧ cur = mx)) →
      (∀ (p c : Int), 0 ≤ p → p < arr.length → p < mn →
        SortedArray.cmpAt (keyCmp k) arr obj p = some c → 0 < c) →
      (∀ (p c : Int), 0 ≤ p → p < arr.length → mx < p →
        SortedArray.cmpAt (keyCmp k) arr obj p = some c → c < 0) →
      ∃ i found, SortedArray.searchGo (keyCmp k) arr obj mn mx cur = .ok (i, found) ∧
        ((found = true ∧ 0 ≤ i ∧ i < arr.length ∧
            SortedArray.cmpAt (keyCmp k) arr obj i = some 0) ∨
         (found = false ∧
            (∀ (p c : Int), 0 ≤ p → p < arr.length → p ≤ i →
              SortedArray.cmpAt (keyCmp k) arr obj p = some c → 0 < c) ∧
            (∀ (p c : Int), 0 ≤ p → p < arr.length → i < p →
              SortedArray.cmpAt (keyCmp k) arr obj p = some c → c < 0))) := by
  intro mn mx cur
  induction mn, mx, cur using SortedArray.searchGo.induct (keyCmp k) arr obj with
  | case1 mn mx cur hlt =>
    intro h0 hwin hlen hpos hpre hsuf
    have hc : mx = mn - 1 ∧ cur = mx := by
      rcases hpos with h | h
      · omega
      · exact h
    refine ⟨cur, false, ?_, Or.inr ⟨rfl, ?_, ?_⟩⟩
    · unfold SortedArray.searchGo
      rw [if_pos hlt]
    · intro p c hp0 hplen hpi hpc
      exact hpre p c hp0 hplen (by omega) hpc
    · intro p c hp0 hplen hpi hpc
      exact hsuf p c hp0 hplen (by omega) hpc
  | case2 mn mx cur hge hnone =>
    intro h0 hwin hlen hpos hpre hsuf
    exfalso
    have hcur : 0 ≤ cur ∧ cur < arr.length := by
      rcases hpos with h | h
      · omega
      · omega
    obtain ⟨c, hc⟩ := cmpAt_some_exists (keyCmp k) arr obj cur hcur.1 hcur.2
    rw [hnone] at hc
    cases hc
  | case3 mn mx cur hge hsome0 =>
    intro h0 hwin hlen hpos hpre hsuf
    have hb := cmpAt_some_elim (keyCmp k) arr obj cur 0 hsome0
    refine ⟨cur, true, ?_, Or.inl ⟨rfl, hb.1, hb.2.1, hsome0⟩⟩
    unfold SortedArray.searchGo
    rw [if_neg hge, hsome0]
    dsimp only
    norm_num
  | case4 mn mx cur hge compare hsome hnz hneg ih =>
    intro h0 hwin hlen hpos hpre hsuf
    have hcur : mn ≤ cur ∧ cur ≤ mx := by
      rcases hpos with h | h
      · exact h
      · omega
    obtain ⟨hcl, hclen, hcp, hcv⟩ := cmpAt_some_elim (keyCmp k) arr obj cur compare hsome
    have hsuf' : ∀ (p c : Int), 0 ≤ p → p < arr.length → cur - 1 < p →
        SortedArray.cmpAt (keyCmp k) arr obj p = some c → c < 0 := by
      intro p c hp0 hplen hpgt hpc
      obtain ⟨hq0, hqlen, hpp, hpv⟩ := cmpAt_some_elim (keyCmp k) arr obj p c hpc
      have hord := hs cur.toNat p.toNat hcp hpp (by omega)
      simp only [keyCmp, NumericSort] at hcv hpv
      omega
    obtain ⟨i, found, hrun, hres⟩ := ih h0 (by omega) (by omega) (by omega) hpre hsuf'
    refine ⟨i, found, ?_, hres⟩
    unfold SortedArray.searchGo
    rw [if_neg hge, hsome]
    dsimp only
    rw [if_neg hnz, if_pos hneg]
    exact hrun
  | case5 mn mx cur hge compare hsome hnz hnneg ih =>
    intro h0 hwin hlen hpos hpre hsuf
    have hcur : mn ≤ cur ∧ cur ≤ mx := by
      rcases hpos with h | h
      · exact h
      · omega
    obtain ⟨hcl, hclen, hcp, hcv⟩ := cmpAt_some_elim (keyCmp k) arr obj cur compare hsome
    have hpre' : ∀ (p c : Int), 0 ≤ p → p < arr.length → p < cur + 1 →
        SortedArray.cmpAt (keyCmp k) arr obj p = some c → 0 < c := by
      intro p c hp0 hplen hplt hpc
      obtain ⟨hq0, hqlen, hpp, hpv⟩ := cmpAt_some_elim (keyCmp k) arr obj p c hpc
      have hord := hs p.toNat cur.toNat hpp hcp (by omega)
      simp only [keyCmp, NumericSort] at hcv hpv
      omega
    obtain ⟨i, found, hrun, hres⟩ := ih (by omega) (by omega) (by omega) (by omega) hpre' hsuf
    refine ⟨i, found, ?_, hres⟩
    unfold SortedArray.searchGo
    rw [if_neg hge, hsome]
    dsimp only
    rw [if_neg hnz, if_neg hnneg]
    exact hrun

/-- With no explicit bounds and a non-empty array, `search` sorts and runs the
loop over the full range `[0, length-1]` starting at probe `⌊(length-1)/2⌋`. -/
theorem search_full_run (k : T → Int) (s : SortedArray T) (obj : T)
    (hne : s.array.length ≠ 0) :
    SortedArray.search (keyCmp k) s obj none none =
      (SortedArray.searchGo (keyCmp k) (SortedArray._sort (keyCmp k) s).array obj 0
        (((SortedArray._sort (keyCmp k) s).array.length : Int) - 1)
        ((((SortedArray._sort (keyCmp k) s).array.length : Int) - 1) / 2),
        SortedArray._sort (keyCmp k) s) := by
  unfold SortedArray.search
  dsimp only
  rw [if_neg hne]
  rfl

/-- On a length-zero array, `search` with default bounds reports a miss at
index `0` without touching the state. -/
theorem search_empty (k : T → Int) (s : SortedArray T) (hlen : s.array.length = 0) :
    SortedArray.search (keyCmp k) s obj none none = (.ok (0, false), s) := by
  unfold SortedArray.search
  dsimp only
  rw [if_pos hlen]
  norm_num

/-- **C4**: `findNearest` is total over good states.  On an empty collection it
returns `{lt: undefined, gt: undefined}`.  On a non-empty collection it returns
exactly one of `eq` — whenever some position of the sorted storage compares
equal to the key, the result is `eq` with a genuinely matching element — or
`{lt, gt}` — whenever no position matches, where `lt` is the greatest element
strictly below the key (`undefined` exactly when everything sits above) and
`gt` the least element strictly above it (`undefined` exactly when everything
sits below). -/
theorem C4_find_nearest (k : T → Int) (s : SortedArray T) (obj : T)
    (hgs : s.sorting = false)
    (hok : s.sorted = true →
      s.array.Pairwise (fun a b => SortedArray.compareFn (keyCmp k) a b ≤ 0)) :
    (s.array.length = 0 →
      (SortedArray.findNearest (keyCmp k) s obj).1 = .ok (.ltgt none none)) ∧
    (s.array.length ≠ 0 →
      ∃ r, (SortedArray.findNearest (keyCmp k) s obj).1 = .ok r ∧
        ((∃ p, 0 ≤ p ∧ p < ((SortedArray._sort (keyCmp k) s).array.length : Int) ∧
            SortedArray.cmpAt (keyCmp k) (SortedArray._sort (keyCmp k) s).array obj p
              = some 0) →
          ∃ fr, r = .eq fr ∧
            SortedArray.cmpAt (keyCmp k) (SortedArray._sort (keyCmp k) s).array obj fr.index
              = some 0 ∧
            ∃ nd, jsGet (SortedArray._sort (keyCmp k) s).array fr.index = some nd ∧
              fr.obj = nd.obj) ∧
        ((∀ p : Int, 0 ≤ p → p < ((SortedArray._sort (keyCmp k) s).array.length : Int) →
            SortedArray.cmpAt (keyCmp k) (SortedArray._sort (keyCmp k) s).array obj p
              ≠ some 0) →
          ∃ lt gt, r = .ltgt lt gt ∧
            (lt = none → ∀ (p c : Int),
              SortedArray.cmpAt (keyCmp k) (SortedArray._sort (keyCmp k) s).array obj p
                = some c → c < 0) ∧
            (∀ fr, lt = some fr →
              (∃ c, SortedArray.cmpAt (keyCmp k) (SortedArray._sort (keyCmp k) s).array obj
                  fr.index = some c ∧ 0 < c) ∧
              (∀ (p c : Int), fr.index < p →
                SortedArray.cmpAt (keyCmp k) (SortedArray._sort (keyCmp k) s).array obj p
                  = some c → c < 0) ∧
              ∃ nd, jsGet (SortedArray._sort (keyCmp k) s).array fr.index = some nd ∧
                fr.obj = nd.obj) ∧
            (gt = none → ∀ (p c : Int),
              SortedArray.cmpAt (keyCmp k) (SortedArray._sort (keyCmp k) s).array obj p
                = some c → 0 < c) ∧
            (∀ fr, gt = some fr →
              (∃ c, SortedArray.cmpAt (keyCmp k) (SortedArray._sort (keyCmp k) s).array obj
                  fr.index = some c ∧ c < 0) ∧
              (∀ (p c : Int), p < fr.index →
                SortedArray.cmpAt (keyCmp k) (SortedArray._sort (keyCmp k) s).array obj p
                  = some c → 0 < c) ∧
              ∃ nd, jsGet (SortedArray._sort (keyCmp k) s).array fr.index = some nd ∧
                fr.obj = nd.obj))) := by
  constructor
  · intro hlen
    unfold SortedArray.findNearest
    rw [search_empty k s hlen]
    dsimp only
    rw [hlen]
    norm_num
  · intro hne
    have hsv := sortedView k s hgs hok
    have hml : (SortedArray._sort (keyCmp k) s).array.length = s.array.length :=
      hsv.2.length_eq
    have hord := pairwise_k_getElem k _ hsv.1
    obtain ⟨i, found, hgo, hres⟩ :=
      searchGo_std k (SortedArray._sort (keyCmp k) s).array obj hord 0
        (((SortedArray._sort (keyCmp k) s).array.length : Int) - 1)
        ((((SortedArray._sort (keyCmp k) s).array.length : Int) - 1) / 2)
        (by omega) (by omega) (by omega)
        (by left; constructor <;> omega)
        (fun p c hp0 hplen hpm hpc => absurd hpm (by omega))
        (fun p c hp0 hplen hpm hpc => absurd hpm (by omega))
    unfold SortedArray.findNearest
    rw [search_full_run k s obj hne, hgo]
    dsimp only
    rcases hres with ⟨hf, h0i, hilen, hc0⟩ | ⟨hf, hpre, hsuf⟩
    · subst hf
      rw [if_pos rfl]
      obtain ⟨nd, hget, hval⟩ := cmpAt_some_jsGet (keyCmp k) _ obj i 0 hc0
      rw [hget]
      dsimp only
      refine ⟨.eq ⟨nd.obj, i⟩, rfl, ?_, ?_⟩
      · intro _
        exact ⟨⟨nd.obj, i⟩, rfl, hc0, nd, hget, rfl⟩
      · intro hnom
        exact absurd hc0 (hnom i h0i hilen)
    · subst hf
      rw [if_neg Bool.false_ne_true]
      dsimp only
      have hnom : ∀ p : Int, 0 ≤ p → p < ((SortedArray._sort (keyCmp k) s).array.length : Int) →
          SortedArray.cmpAt (keyCmp k) (SortedArray._sort (keyCmp k) s).array obj p
            ≠ some 0 := by
        intro p hp0 hpl hpc
        rcases le_or_lt p i with h | h
        · have := hpre p 0 hp0 hpl h hpc
          omega
        · have := hsuf p 0 hp0 hpl h hpc
          omega
      by_cases hi : i < 0
      · rw [if_pos hi]
        obtain ⟨c0, hc0⟩ := cmpAt_some_exists (keyCmp k) (SortedArray._sort (keyCmp k) s).array obj 0 le_rfl (by omega)
        obtain ⟨nd0, hget0, hval0⟩ := cmpAt_some_jsGet (keyCmp k) _ obj 0 c0 hc0
        rw [if_pos (by norm_num), if_neg (by omega), hget0]
        dsimp only
        refine ⟨.ltgt none (some ⟨nd0.obj, 0⟩), rfl, ?_, ?_⟩
        · rintro ⟨p, hp0, hpl, hpc⟩
          exact absurd hpc (hnom p hp0 hpl)
        · intro _
          refine ⟨none, some ⟨nd0.obj, 0⟩, rfl, ?_, ?_, ?_, ?_⟩
          · intro _ p c hpc
            obtain ⟨hp0, hpl, -⟩ := cmpAt_some_elim (keyCmp k) _ obj p c hpc
            exact hsuf p c hp0 (by omega) (by omega) hpc
          · intro fr h
            exact (Option.some_ne_none fr h.symm).elim
          · intro h
            exact (Option.some_ne_none _ h).elim
          · intro fr h
            obtain rfl : (⟨nd0.obj, 0⟩ : FindResult T) = fr := by injection h
            refine ⟨⟨c0, hc0, ?_⟩, ?_, nd0, hget0, rfl⟩
            · have := hsuf 0 c0 le_rfl (by omega) (by omega) hc0
              omega
            · intro p c hplt hpc
              obtain ⟨hp0, -, -⟩ := cmpAt_some_elim (keyCmp k) _ obj p c hpc
              exact absurd (show p < (0 : Int) from hplt) (by omega)
      · rw [if_neg hi]
        by_cases hile : ((SortedArray._sort (keyCmp k) s).array.length : Int) ≤ i
        · rw [if_pos hile]
          obtain ⟨cL, hcL⟩ := cmpAt_some_exists (keyCmp k) (SortedArray._sort (keyCmp k) s).array obj
            (((SortedArray._sort (keyCmp k) s).array.length : Int) - 1) (by omega) (by omega)
          obtain ⟨ndL, hgetL, hvalL⟩ := cmpAt_some_jsGet (keyCmp k) _ obj _ cL hcL
          rw [if_neg (by omega), if_pos le_rfl, hgetL]
          dsimp only
          refine ⟨.ltgt (some ⟨ndL.obj,
            ((SortedArray._sort (keyCmp k) s).array.length : Int) - 1⟩) none, rfl, ?_, ?_⟩
          · rintro ⟨p, hp0, hpl, hpc⟩
            exact absurd hpc (hnom p hp0 hpl)
          · intro _
            refine ⟨some ⟨ndL.obj, ((SortedArray._sort (keyCmp k) s).array.length : Int) - 1⟩,
              none, rfl, ?_, ?_, ?_, ?_⟩
            · intro h
              exact (Option.some_ne_none _ h).elim
            · intro fr h
              obtain rfl : (⟨ndL.obj,
                  ((SortedArray._sort (keyCmp k) s).array.length : Int) - 1⟩ : FindResult T)
                  = fr := by injection h
              refine ⟨⟨cL, hcL, ?_⟩, ?_, ndL, hgetL, rfl⟩
              · have := hpre (((SortedArray._sort (keyCmp k) s).array.length : Int) - 1) cL
                  (by omega) (by omega) (by omega) hcL
                omega
              · intro p c hplt hpc
                have hplt2 : ((SortedArray._sort (keyCmp k) s).array.length : Int) - 1 < p :=
                  hplt
                obtain ⟨hp0, hpl, -⟩ := cmpAt_some_elim (keyCmp k) _ obj p c hpc
                exact absurd hpl (by omega)
            · intro _ p c hpc
              obtain ⟨hp0, hpl, -⟩ := cmpAt_some_elim (keyCmp k) _ obj p c hpc
              exact hpre p c hp0 (by omega) (by omega) hpc
            · intro fr h
              exact (Option.some_ne_none fr h.symm).elim
        · rw [if_neg hile]
          obtain ⟨ci, hci⟩ := cmpAt_some_exists (keyCmp k) (SortedArray._sort (keyCmp k) s).array obj i (by omega) (by omega)
          obtain ⟨ndi, hgeti, hvali⟩ := cmpAt_some_jsGet (keyCmp k) _ obj i ci hci
          have hcip : 0 < ci := hpre i ci (by omega) (by omega) le_rfl hci
          rw [hgeti]
          dsimp only
          rw [hvali, if_neg (by omega), if_pos hcip]
          rw [if_neg (by omega), show i - 0 = i from sub_zero i, hgeti]
          by_cases hlast : ((SortedArray._sort (keyCmp k) s).array.length : Int) ≤ i + 1
          · rw [if_pos hlast]
            refine ⟨.ltgt (some ⟨ndi.obj, i⟩) none, rfl, ?_, ?_⟩
            · rintro ⟨p, hp0, hpl, hpc⟩
              exact absurd hpc (hnom p hp0 hpl)
            · intro _
              refine ⟨some ⟨ndi.obj, i⟩, none, rfl, ?_, ?_, ?_, ?_⟩
              · intro h
                exact (Option.some_ne_none _ h).elim
              · intro fr h
                obtain rfl : (⟨ndi.obj, i⟩ : FindResult T) = fr := by injection h
                refine ⟨⟨ci, hci, hcip⟩, ?_, ndi, hgeti, rfl⟩
                intro p c hplt hpc
                have hplt2 : i < p := hplt
                obtain ⟨hp0, hpl, -⟩ := cmpAt_some_elim (keyCmp k) _ obj p c hpc
                exact hsuf p c hp0 (by omega) (by omega) hpc
              · intro _ p c hpc
                obtain ⟨hp0, hpl, -⟩ := cmpAt_some_elim (keyCmp k) _ obj p c hpc
                exact hpre p c hp0 (by omega) (by omega) hpc
              · intro fr h
                exact (Option.some_ne_none fr h.symm).elim
          · rw [if_neg hlast]
            obtain ⟨cj, hcj⟩ := cmpAt_some_exists (keyCmp k) (SortedArray._sort (keyCmp k) s).array obj (i + 1) (by omega) (by omega)
            obtain ⟨ndj, hgetj, hvalj⟩ := cmpAt_some_jsGet (keyCmp k) _ obj (i + 1) cj hcj
            have hcjn : cj < 0 := hsuf (i + 1) cj (by omega) (by omega) (by omega) hcj
            rw [hgetj]
            refine ⟨.ltgt (some ⟨ndi.obj, i⟩) (some ⟨ndj.obj, i + 1⟩), rfl, ?_, ?_⟩
            · rintro ⟨p, hp0, hpl, hpc⟩
              exact absurd hpc (hnom p hp0 hpl)
            · intro _
              refine ⟨some ⟨ndi.obj, i⟩, some ⟨ndj.obj, i + 1⟩, rfl, ?_, ?_, ?_, ?_⟩
              · intro h
                exact (Option.some_ne_none _ h).elim
              · intro fr h
                obtain rfl : (⟨ndi.obj, i⟩ : FindResult T) = fr := by injection h
                refine ⟨⟨ci, hci, hcip⟩, ?_, ndi, hgeti, rfl⟩
                intro p c hplt hpc
                have hplt2 : i < p := hplt
                obtain ⟨hp0, hpl, -⟩ := cmpAt_some_elim (keyCmp k) _ obj p c hpc
                exact hsuf p c hp0 (by omega) (by omega) hpc
              · intro h
                exact (Option.some_ne_none _ h).elim
              · intro fr h
                obtain rfl : (⟨ndj.obj, i + 1⟩ : FindResult T) = fr := by injection h
                refine ⟨⟨cj, hcj, hcjn⟩, ?_, ndj, hgetj, rfl⟩
                intro p c hplt hpc
                have hplt2 : p < i + 1 := hplt
                obtain ⟨hp0, hpl, -⟩ := cmpAt_some_elim (keyCmp k) _ obj p c hpc
                exact hpre p c hp0 (by omega) (by omega) hpc

/-- A concrete empty collection for exercising `findNearest`. -/
def c4State : SortedArray Payload :=
  { array := [], sorted := true, sorting := false, insertionCounter := 0 }

theorem C4_find_nearest_witness :
    (SortedArray.findNearest (keyCmp Payload.val) c4State ⟨7, 5⟩).1 = .ok (.ltgt none none) :=
  (C4_find_nearest Payload.val c4State ⟨7, 5⟩ rfl (fun _ => List.Pairwise.nil)).1 rfl

/-- A collection holding the same payload instance twice (the README's
`exact` example shape), already sorted. -/
def c5State : SortedArray Payload :=
  { array := [⟨⟨0, 3⟩, -10⟩, ⟨⟨0, 3⟩, -9⟩], sorted := true, sorting := false,
    insertionCounter := 0 }

theorem c5_search_eval :
    SortedArray.search (keyCmp Payload.val) c5State ⟨0, 3⟩ (some 0) (some 1) =
      (.ok (0, true), c5State) := by
  rw [search_run Payload.val c5State ⟨0, 3⟩ 0 1 (by norm_num) (by norm_num)
    (by norm_num [c5State]) (by norm_num [c5State])]
  have hA : SortedArray._sort (keyCmp Payload.val) c5State = c5State := rfl
  rw [hA, SortedArray.searchGo.eq_def]
  norm_num [SortedArray.cmpAt, jsGet, c5State, keyCmp, NumericSort]

theorem c5_collect_down_eval :
    SortedArray.collectDown (keyCmp Payload.val) c5State.array ⟨0, 3⟩ 0 (0 - 1) = [] := by
  rw [SortedArray.collectDown.eq_def]
  norm_num

theorem c5_collect_up_eval :
    SortedArray.collectUp (keyCmp Payload.val) c5State.array ⟨0, 3⟩ 1 0 = [0, 1] := by
  rw [SortedArray.collectUp.eq_def]
  norm_num [SortedArray.cmpAt, jsGet, c5State, keyCmp, NumericSort]
  rw [SortedArray.collectUp.eq_def]
  norm_num [SortedArray.cmpAt, jsGet, c5State, keyCmp, NumericSort]
  rw [SortedArray.collectUp.eq_def]
  norm_num [SortedArray.cmpAt, jsGet, c5State, keyCmp, NumericSort]

theorem c5_search_all_eval :
    SortedArray.searchAll (keyCmp Payload.val) c5State ⟨0, 3⟩ none none =
      (.ok [0, 1], c5State) := by
  unfold SortedArray.searchAll
  dsimp only
  simp only [Option.getD_none]
  rw [show ((c5State.array.length : Int) - 1) = 1 by decide]
  rw [c5_search_eval]
  dsimp only
  rw [if_neg (by norm_num)]
  rw [c5_collect_down_eval, c5_collect_up_eval]
  rfl

theorem c5_search_exact_eval :
    SortedArray.searchExact (keyCmp Payload.val) c5State ⟨0, 3⟩ none none =
      (.ok [0, 1], c5State) := by
  unfold SortedArray.searchExact
  rw [c5_search_all_eval]
  rfl

theorem c5_search_nth_eval :
    SortedArray.searchNth (keyCmp Payload.val) c5State ⟨0, 3⟩ (.num (-2) false) none none true =
      (.ok (none, true), c5State) := by
  unfold SortedArray.searchNth
  rw [c5_search_exact_eval]
  rfl

/-- **C5**: refuted as stated — on a collection holding the same payload
instance twice, `findNth(obj, -2, exact := true)` has `|n| = 2` outside the
valid negative offsets, so the claim (and the README) promise `undefined`
(not-found); but `searchNth`'s exact path only guards `result.length <= n`,
so a negative overflow indexes `result[-1] = undefined`, stores it as the
found index with `found = true`, and `findNth` then throws a TypeError
instead of returning `undefined`. -/
theorem C5_find_nth_exact_negative_overflow :
    (SortedArray.searchNth (keyCmp Payload.val) c5State ⟨0, 3⟩ (.num (-2) false)
        none none true).1 = .ok (none, true) ∧
    (SortedArray.findNth (keyCmp Payload.val) c5State ⟨0, 3⟩ (.num (-2) false) true).1
      = .error "TypeError: Cannot read property obj of undefined" := by
  constructor
  · rw [c5_search_nth_eval]
  · unfold SortedArray.findNth
    rw [show SortedArray._sort (keyCmp Payload.val) c5State = c5State from rfl]
    dsimp only
    rw [c5_search_nth_eval]
    rfl

/-- Spec-side description of which elements survive a batch removal: walk the
list labelling positions from `lab` upward and drop exactly the positions
listed in `idxs`. -/
def specKeepPositions (idxs : List Int) : List α → Int → List α
  | [], _ => []
  | x :: xs, lab =>
    if lab ∈ idxs then specKeepPositions idxs xs (lab + 1)
    else x :: specKeepPositions idxs xs (lab + 1)

theorem jsGet_cons_one_le (x : α) (xs : List α) (m : Int) (h1 : 1 ≤ m) :
    jsGet (x :: xs) m = jsGet xs (m - 1) := by
  unfold jsGet
  rw [if_neg (by omega), if_neg (by omega)]
  rw [show m.toNat = (m - 1).toNat + 1 by omega]
  exact List.getElem?_cons_succ

theorem jsGet_eraseIdx_ge : ∀ (arr : List α) (kk : Nat) (m : Int), kk < arr.length →
    (kk : Int) ≤ m → jsGet (arr.eraseIdx kk) m = jsGet arr (m + 1) := by
  intro arr
  induction arr with
  | nil => intro kk m hk; exact absurd hk (by simp)
  | cons x xs ih =>
    intro kk m hk hm
    cases kk with
    | zero =>
      rw [List.eraseIdx_cons_zero]
      rw [jsGet_cons_one_le x xs (m + 1) (by omega)]
      rw [show m + 1 - 1 = m by ring]
    | succ kk' =>
      rw [List.eraseIdx_cons_succ]
      rw [jsGet_cons_one_le x (xs.eraseIdx kk') m (by push_cast at hm ⊢; omega)]
      rw [jsGet_cons_one_le x xs (m + 1) (by omega)]
      rw [show m + 1 - 1 = m by ring]
      rw [ih kk' (m - 1) (by simpa using hk) (by push_cast at hm ⊢; omega)]
      rw [show m - 1 + 1 = m by ring]

theorem specKeep_drop_head (j : Int) (rest : List Int) :
    ∀ (xs : List α) (lab : Int), j < lab →
      specKeepPositions (j :: rest) xs lab = specKeepPositions rest xs lab := by
  intro xs
  induction xs with
  | nil => intro lab _; rfl
  | cons x xs ih =>
    intro lab hlab
    have hne : (lab ∈ j :: rest) ↔ (lab ∈ rest) := by
      simp only [List.mem_cons]
      constructor
      · rintro (h | h)
        · omega
        · exact h
      · exact Or.inr
    exact if_congr hne (ih (lab + 1) (by omega))
      (congrArg (fun ll => x :: ll) (ih (lab + 1) (by omega)))

theorem specKeep_erase (j : Int) (rest : List Int) (hrest : ∀ j' ∈ rest, j < j') :
    ∀ (arr : List α) (i : Int), i ≤ j → (j - i).toNat < arr.length →
      specKeepPositions (j :: rest) arr i =
        specKeepPositions rest (arr.eraseIdx (j - i).toNat) (i + 1) := by
  intro arr
  induction arr with
  | nil => intro i _ hk; exact absurd hk (by simp)
  | cons x xs ih =>
    intro i hij hk
    by_cases hji : j = i
    · subst hji
      rw [show (j - j).toNat = 0 by omega, List.eraseIdx_cons_zero]
      show (if j ∈ j :: rest then specKeepPositions (j :: rest) xs (j + 1)
          else x :: specKeepPositions (j :: rest) xs (j + 1)) =
        specKeepPositions rest xs (j + 1)
      rw [if_pos (by simp)]
      exact specKeep_drop_head j rest xs (j + 1) (by omega)
    · rw [show (j - i).toNat = ((j - (i + 1)).toNat) + 1 by omega, List.eraseIdx_cons_succ]
      show (if i ∈ j :: rest then specKeepPositions (j :: rest) xs (i + 1)
          else x :: specKeepPositions (j :: rest) xs (i + 1)) =
        (if i + 1 ∈ rest then
          specKeepPositions rest (xs.eraseIdx (j - (i + 1)).toNat) (i + 1 + 1)
        else x :: specKeepPositions rest (xs.eraseIdx (j - (i + 1)).toNat) (i + 1 + 1))
      have hm1 : i ∉ j :: rest := by
        simp only [List.mem_cons]
        push_neg
        exact ⟨by omega, fun h => absurd (hrest i h) (by omega)⟩
      have hm2 : i + 1 ∉ rest := fun h => absurd (hrest (i + 1) h) (by omega)
      rw [if_neg hm1, if_neg hm2]
      rw [ih (i + 1) (by omega) (by simp only [List.length_cons] at hk; omega)]

theorem specKeep_nil : ∀ (arr : List α) (i : Int), specKeepPositions [] arr i = arr := by
  intro arr
  induction arr with
  | nil => intro i; rfl
  | cons x xs ih =>
    intro i
    show (if i ∈ ([] : List Int) then specKeepPositions [] xs (i + 1)
      else x :: specKeepPositions [] xs (i + 1)) = x :: xs
    rw [if_neg (by simp), ih (i + 1)]

theorem removeLoop_spec : ∀ (idxs : List Int) (arr : List (SANode T)) (i : Int),
    idxs.Pairwise (· < ·) →
    (∀ j ∈ idxs, i ≤ j ∧ j - i < (arr.length : Int)) →
    SortedArray.removeLoop arr idxs i =
      (idxs.filterMap (fun j => (jsGet arr (j - i)).map (fun n => n.obj)),
        specKeepPositions idxs arr i, none) := by
  intro idxs
  induction idxs with
  | nil =>
    intro arr i _ _
    unfold SortedArray.removeLoop
    rw [List.filterMap_nil, specKeep_nil]
  | cons j rest ih =>
    intro arr i hpw hin
    have hji := (hin j (by simp)).1
    have hjlen := (hin j (by simp)).2
    have hk : (j - i).toNat < arr.length := by omega
    have hrest : ∀ j' ∈ rest, j < j' := fun j' hj' => List.rel_of_pairwise_cons hpw hj'
    have hget : jsGet arr (j - i) = some (arr.get ⟨(j - i).toNat, hk⟩) := by
      unfold jsGet
      rw [if_neg (by omega), List.getElem?_eq_getElem hk]
      simp [List.get_eq_getElem]
    have hin2 : ∀ j' ∈ rest, i + 1 ≤ j' ∧
        j' - (i + 1) < ((arr.eraseIdx (j - i).toNat).length : Int) := by
      intro j' hj'
      have h1 := hrest j' hj'
      have h2 := (hin j' (by simp [hj'])).2
      rw [List.length_eraseIdx_of_lt hk]
      constructor
      · omega
      · omega
    have hfm : rest.filterMap
        (fun j' => (jsGet (arr.eraseIdx (j - i).toNat) (j' - (i + 1))).map (fun n => n.obj)) =
        rest.filterMap (fun j' => (jsGet arr (j' - i)).map (fun n => n.obj)) := by
      apply List.filterMap_congr
      intro j' hj'
      rw [jsGet_eraseIdx_ge arr (j - i).toNat (j' - (i + 1)) hk
        (by have := hrest j' hj'; omega)]
      rw [show j' - (i + 1) + 1 = j' - i by ring]
    unfold SortedArray.removeLoop
    dsimp only
    rw [dif_pos ⟨by omega, hk⟩]
    rw [ih (arr.eraseIdx (j - i).toNat) (i + 1) hpw.of_cons hin2]
    dsimp only
    rw [hfm, ← specKeep_erase j rest hrest arr i hji hk]
    rw [List.filterMap_cons, hget]
    rfl

theorem mergeSort_int_pairwise_lt (idxs : List Int) (hnd : idxs.Nodup) :
    (idxs.mergeSort (fun a b => decide (a ≤ b))).Pairwise (· < ·) := by
  have hs := @List.sorted_mergeSort Int
    (fun a b : Int => decide (a ≤ b))
    (fun a b c hab hbc => by
      simp only [decide_eq_true_eq] at *
      omega)
    (fun a b => by
      simp only [Bool.or_eq_true, decide_eq_true_eq]
      omega) idxs
  have hle : (idxs.mergeSort (fun a b => decide (a ≤ b))).Pairwise (· ≤ ·) :=
    hs.imp (fun hab => by simpa using hab)
  have hne : (idxs.mergeSort (fun a b => decide (a ≤ b))).Pairwise (· ≠ ·) :=
    ((List.mergeSort_perm idxs _).nodup_iff).mpr hnd
  exact (hle.and hne).imp (fun hab => lt_of_le_of_ne hab.1 hab.2)

theorem removeLoop_oob : ∀ (idxs : List Int) (arr : List (SANode T)) (i : Int),
    idxs.Pairwise (· < ·) →
    (∃ j ∈ idxs, j < i ∨ (arr.length : Int) + i ≤ j) →
    (SortedArray.removeLoop arr idxs i).2.2 =
      some "RangeError: index is outside the bounds of this array" := by
  intro idxs
  induction idxs with
  | nil =>
    intro arr i _ h
    obtain ⟨j, hj, _⟩ := h
    exact absurd hj (by simp)
  | cons j rest ih =>
    intro arr i hpw hex
    unfold SortedArray.removeLoop
    dsimp only
    by_cases h : 0 ≤ j - i ∧ (j - i).toNat < arr.length
    · rw [dif_pos h]
      dsimp only
      apply ih (arr.eraseIdx (j - i).toNat) (i + 1) hpw.of_cons
      obtain ⟨jw, hjw, hoob⟩ := hex
      rcases List.mem_cons.mp hjw with rfl | hmem
      · exfalso
        omega
      · refine ⟨jw, hmem, ?_⟩
        have hlt := List.rel_of_pairwise_cons hpw hmem
        rw [List.length_eraseIdx_of_lt h.2]
        omega
    · rw [dif_neg h]

/-- **C6 (amended)**: `removeAll` interprets its indices against the sorted
view, but first sorts the requested indices ascending; with duplicate-free
in-range indices it deletes exactly the elements at those positions of the
sorted storage and returns the removed payloads in ascending index order —
not in the caller's requested order — and when some requested index is out of
range it raises the RangeError. -/
theorem C6_remove_all_amended (k : T → Int) (s : SortedArray T) (idxs : List Int)
    (hnd : idxs.Nodup) :
    ((∀ j ∈ idxs, 0 ≤ j ∧ j < (s.array.length : Int)) →
      SortedArray.removeAll (keyCmp k) s idxs =
        (.ok ((idxs.mergeSort (fun a b => decide (a ≤ b))).filterMap
            (fun j => (jsGet (SortedArray._sort (keyCmp k) s).array j).map (fun n => n.obj))),
          { SortedArray._sort (keyCmp k) s with
            array := specKeepPositions (idxs.mergeSort (fun a b => decide (a ≤ b)))
              (SortedArray._sort (keyCmp k) s).array 0 })) ∧
    ((∃ j ∈ idxs, j < 0 ∨ (s.array.length : Int) ≤ j) →
      (SortedArray.removeAll (keyCmp k) s idxs).1 =
        .error "RangeError: index is outside the bounds of this array") := by
  have hml := (_sort_perm (keyCmp k) s).length_eq
  have hpw := mergeSort_int_pairwise_lt idxs hnd
  constructor
  · intro hin
    have hin2 : ∀ j ∈ idxs.mergeSort (fun a b => decide (a ≤ b)), 0 ≤ j ∧
        j - 0 < (((SortedArray._sort (keyCmp k) s).array.length : Int)) := by
      intro j hj
      have hj2 := hin j ((List.mergeSort_perm idxs _).subset hj)
      omega
    have hrl := removeLoop_spec (idxs.mergeSort (fun a b => decide (a ≤ b)))
      (SortedArray._sort (keyCmp k) s).array 0 hpw hin2
    unfold SortedArray.removeAll
    dsimp only
    rw [hrl]
    simp only [sub_zero]
  · intro hex
    have hex2 : ∃ j ∈ idxs.mergeSort (fun a b => decide (a ≤ b)), j < 0 ∨
        (((SortedArray._sort (keyCmp k) s).array.length : Int)) + 0 ≤ j := by
      obtain ⟨j, hj, ho⟩ := hex
      refine ⟨j, ((List.mergeSort_perm idxs _).mem_iff).mpr hj, ?_⟩
      omega
    have hoo := removeLoop_oob (idxs.mergeSort (fun a b => decide (a ≤ b)))
      (SortedArray._sort (keyCmp k) s).array 0 hpw hex2
    unfold SortedArray.removeAll
    dsimp only
    rcases hr : SortedArray.removeLoop (SortedArray._sort (keyCmp k) s).array
      (idxs.mergeSort (fun a b => decide (a ≤ b))) 0 with ⟨acc, arr2, err⟩
    rw [hr] at hoo
    dsimp only at hoo
    subst hoo
    rfl

/-- A concrete two-element sorted collection for exercising `removeAll`. -/
def c6State : SortedArray Payload :=
  { array := [⟨⟨0, 5⟩, -10⟩, ⟨⟨1, 9⟩, -9⟩], sorted := true, sorting := false,
    insertionCounter := 0 }

theorem c6_remove_all_eval :
    SortedArray.removeAll (keyCmp Payload.val) c6State [1, 0] =
      (.ok [⟨0, 5⟩, ⟨1, 9⟩], { c6State with array := [] }) := by
  unfold SortedArray.removeAll
  dsimp only
  rw [show (([1, 0] : List Int).mergeSort (fun a b => decide (a ≤ b))) = [0, 1] by
    simp [List.mergeSort]]
  rfl

/-- **C6 (counterexample)**: with the caller requesting indices `[1, 0]`,
`removeAll` returns the removed payloads sorted ascending by index —
`[payload at 0, payload at 1]` — not in the requested order
`[payload at 1, payload at 0]` as the claim states. -/
theorem C6_remove_all_counterexample :
    (SortedArray.removeAll (keyCmp Payload.val) c6State [1, 0]).1 =
      .ok [⟨0, 5⟩, ⟨1, 9⟩] ∧
    ¬ (SortedArray.removeAll (keyCmp Payload.val) c6State [1, 0]).1 =
      .ok [⟨1, 9⟩, ⟨0, 5⟩] := by
  rw [c6_remove_all_eval]
  exact ⟨rfl, fun h => absurd (Except.ok.inj h) (by decide)⟩

theorem C6_remove_all_amended_witness :
    ([1, 0] : List Int).Nodup ∧
    (((∀ j ∈ ([1, 0] : List Int), 0 ≤ j ∧ j < (c6State.array.length : Int)) →
      SortedArray.removeAll (keyCmp Payload.val) c6State [1, 0] =
        (.ok ((([1, 0] : List Int).mergeSort (fun a b => decide (a ≤ b))).filterMap
            (fun j => (jsGet (SortedArray._sort (keyCmp Payload.val) c6State).array j).map
              (fun n => n.obj))),
          { SortedArray._sort (keyCmp Payload.val) c6State with
            array := specKeepPositions (([1, 0] : List Int).mergeSort
                (fun a b => decide (a ≤ b)))
              (SortedArray._sort (keyCmp Payload.val) c6State).array 0 })) ∧
    ((∃ j ∈ ([1, 0] : List Int), j < 0 ∨ (c6State.array.length : Int) ≤ j) →
      (SortedArray.removeAll (keyCmp Payload.val) c6State [1, 0]).1 =
        .error "RangeError: index is outside the bounds of this array")) :=
  ⟨by decide, C6_remove_all_amended Payload.val c6State [1, 0] (by decide)⟩
